import Mathlib

/-!
Verification development for the Hyperliquid API playground repository.

The repository is browser JavaScript (React).  We give a shallow embedding
of the parts the specification talks about:

* `AssetMappingService` (src/services/assetMappingService.js): the
  bidirectional asset-id/asset-name lookup table;
* `HyperliquidApiService` (src/api/hyperliquidService.js): request
  preparation, response processing and error classification;
* `parameterUtils` (src/utils/parameterUtils.js): `{{name}}` placeholder
  substitution;
* the playground component (ApiPlayground.jsx): the WebSocket handling and
  the `useLocalState` localStorage hook, together with a concrete model of
  `JSON.stringify` / `JSON.parse` needed to reason about persistence.

JavaScript `Map`s and plain objects are modelled as association lists in
insertion order; JS strings are Lean `String`s; the JS numbers that matter
to the claims are integers and are modelled as `Int`/`Nat`.  JSON values
are a mutual inductive family (`Json`/`JsonList`/`JsonFields`) so that all
recursions over them are structural and evaluate by kernel reduction.
-/

namespace HL

/-! ### Decimal digits: model of JS `String(n)` for a natural number -/

/-- The decimal digit character for `n < 10`. -/
def decDigit (n : Nat) : Char :=
  if n = 0 then '0' else if n = 1 then '1' else if n = 2 then '2'
  else if n = 3 then '3' else if n = 4 then '4' else if n = 5 then '5'
  else if n = 6 then '6' else if n = 7 then '7' else if n = 8 then '8'
  else '9'

/-- Numeric value of a decimal digit character. -/
def digitVal (c : Char) : Nat := c.toNat - 48

/-- Accumulator-style decimal printing; the first argument is fuel (any
bound on the number, e.g. the number itself), kept structural so that the
definition evaluates by kernel reduction. -/
def natToCharsCore : Nat → Nat → List Char → List Char
  | 0, _, acc => acc
  | fuel + 1, n, acc =>
    if n = 0 then acc
    else natToCharsCore fuel (n / 10) (decDigit (n % 10) :: acc)

/-- The decimal digit string of a natural number, as JS `String(n)` prints it. -/
def natToChars (n : Nat) : List Char :=
  if n = 0 then ['0'] else natToCharsCore n n []

/-- JS `String(n)` for a natural number `n`. -/
def natToString (n : Nat) : String := ⟨natToChars n⟩

/-- JS `String(n)` / `JSON.stringify(n)` for an integer `n`. -/
def intToChars (n : Int) : List Char :=
  if n < 0 then '-' :: natToChars n.natAbs else natToChars n.natAbs

/-- String form of `intToChars`. -/
def intToString (n : Int) : String := ⟨intToChars n⟩

/-- Numeric value of a list of decimal digit characters (most significant first). -/
def charsToNat (ds : List Char) : Nat :=
  ds.foldl (fun a c => a * 10 + digitVal c) 0

/-- Lower-case hexadecimal digit character for `n < 16` (as JS prints in
`\u....` escapes). -/
def hexDigit (n : Nat) : Char :=
  if n < 10 then decDigit n
  else if n = 10 then 'a' else if n = 11 then 'b' else if n = 12 then 'c'
  else if n = 13 then 'd' else if n = 14 then 'e' else 'f'

/-- Value of a hexadecimal digit character, upper or lower case. -/
def hexVal (c : Char) : Option Nat :=
  if c.isDigit then some (c.toNat - 48)
  else if 'a' ≤ c ∧ c ≤ 'f' then some (c.toNat - 87)
  else if 'A' ≤ c ∧ c ≤ 'F' then some (c.toNat - 55)
  else none

/-! ### JS `Map` and string helpers -/

/-- Lookup in a JS `Map` / plain-object model: the (unique) binding of a key. -/
def jsMapGet (m : List (String × String)) (k : String) : Option String :=
  (m.find? (fun p => p.1 = k)).map (·.2)

/-- `Map.prototype.set` / object property assignment: overwrite an existing
binding in place, otherwise append a new binding. -/
def jsMapSet (m : List (String × String)) (k v : String) : List (String × String) :=
  if m.any (fun p => p.1 = k) then
    m.map (fun p => if p.1 = k then (k, v) else p)
  else
    m ++ [(k, v)]

/-- JS object spread of string-valued objects, as in
`\x7b...this.defaultHeaders, ...endpoint.headers\x7d`. -/
def objectSpread (base updates : List (String × String)) : List (String × String) :=
  updates.foldl (fun acc p => jsMapSet acc p.1 p.2) base

/-- JS `String.prototype.includes`, on character lists. -/
def listContainsSub (l pat : List Char) : Bool :=
  match l with
  | [] => pat.isEmpty
  | c :: t => pat.isPrefixOf (c :: t) || listContainsSub t pat

/-- JS `String.prototype.includes`. -/
def jsIncludes (s sub : String) : Bool := listContainsSub s.data sub.data

/-- JS `String.prototype.toUpperCase`, modelled on ASCII letters. -/
def jsToUpper (s : String) : String := ⟨s.data.map Char.toUpper⟩

/-- Model of JS `parseInt(s, 10)`: skip leading whitespace, optional sign,
then the longest prefix of decimal digits; `none` models `NaN` (no digits). -/
def jsParseInt (s : String) : Option Int :=
  let cs := s.data.dropWhile (fun c => c.isWhitespace)
  let signAndRest : Int × List Char :=
    match cs with
    | '-' :: t => (-1, t)
    | '+' :: t => (1, t)
    | _ => (1, cs)
  let ds := signAndRest.2.takeWhile (fun c => c.isDigit)
  if ds.isEmpty then none
  else some (signAndRest.1 * (charsToNat ds : Int))

/-! ### AssetMappingService (src/services/assetMappingService.js) -/

/-- An element of the `universe` array of the `/info meta` response.  The
claims only inspect the `name` field; the remaining fields of the real
response are opaque to the service. -/
structure Asset where
  name : String
deriving Repr, DecidableEq

/-- The `/info meta` response: an object with a `universe` array
(`universe` is a Lean keyword, so the field is called `univ`). -/
structure MetaResponse where
  univ : List Asset
deriving Repr, DecidableEq

/-- The mutable fields of the `AssetMappingService` singleton. -/
structure MappingState where
  idToNameMap : List (String × String)
  nameToIdMap : List (String × String)
  isLoaded : Bool
  metadata : Option MetaResponse
deriving Repr, DecidableEq

/-- The freshly constructed service: empty maps, nothing loaded. -/
def MappingState.init : MappingState :=
  { idToNameMap := [], nameToIdMap := [], isLoaded := false, metadata := none }

/-- `loadMetadata(metaResponse)`: clear both maps, then for each `(asset,
index)` of the universe set `idToNameMap[String(index)] = asset.name` and
`nameToIdMap[asset.name] = String(index)`. -/
def loadMetadata (st : MappingState) (metaResponse : MetaResponse) : MappingState :=
  let maps := metaResponse.univ.enum.foldl
    (fun (m : List (String × String) × List (String × String)) (p : Nat × Asset) =>
      let assetId := natToString p.1
      let assetName := p.2.name
      (jsMapSet m.1 assetId assetName, jsMapSet m.2 assetName assetId))
    ([], [])
  { st with idToNameMap := maps.1, nameToIdMap := maps.2 }

/-- `initialize()`, with the API call abstracted into the `metaResponse`
argument: store the metadata, rebuild the maps, and mark the service loaded. -/
def MappingState.initialized (metaResponse : MetaResponse) : MappingState :=
  let st := { MappingState.init with metadata := some metaResponse }
  let st := loadMetadata st metaResponse
  { st with isLoaded := true }

/-- `getAssetName(assetId)`.  The JS `String(assetId)` normalisation is the
identity on string inputs; `this.idToNameMap.get(id) || null` maps both a
missing binding and a bound empty string (falsy) to `null`. -/
def getAssetName (st : MappingState) (assetId : String) : Option String :=
  if st.isLoaded = false then none
  else
    match jsMapGet st.idToNameMap assetId with
    | some name => if name = "" then none else some name
    | none => none

/-- `getAssetId(assetName)`: uppercases the requested name before the
lookup in the inverse map (`assetName.toUpperCase()`). -/
def getAssetId (st : MappingState) (assetName : String) : Option String :=
  if st.isLoaded = false then none
  else
    match jsMapGet st.nameToIdMap (jsToUpper assetName) with
    | some id => if id = "" then none else some id
    | none => none

/-- `getAssetMetadata(assetId)`: `parseInt` the id, bounds-check it against
the stored universe, and index into it. -/
def getAssetMetadata (st : MappingState) (assetId : String) : Option Asset :=
  match st.isLoaded, st.metadata with
  | true, some md =>
    match jsParseInt assetId with
    | none => none
    | some i =>
      if i < 0 ∨ (md.univ.length : Int) ≤ i then none
      else md.univ.get? i.toNat
  | _, _ => none

/-- The key renaming `transformAllMidsResponse` applies to each allMids
entry: the asset name when `getAssetName` finds one, the id prefixed with
`UNKNOWN_` otherwise. -/
def renameKey (st : MappingState) (assetId : String) : String :=
  match getAssetName st assetId with
  | some n => n
  | none => "UNKNOWN_" ++ assetId

/-- `transformAllMidsResponse(allMidsResponse)`: an allMids response is a JS
object mapping asset-id keys to price strings; each key is renamed by
`renameKey` and the values are copied into a freshly built object. -/
def transformAllMidsResponse (st : MappingState) (allMidsResponse : List (String × String)) :
    List (String × String) :=
  if st.isLoaded = false then allMidsResponse
  else
    allMidsResponse.foldl
      (fun transformed p => jsMapSet transformed (renameKey st p.1) p.2)
      []

/-! ### JSON values, `JSON.stringify` and `JSON.parse`

The browser built-ins `JSON.stringify` / `JSON.parse` are modelled
concretely: a compact printer (string escaping as `JSON.stringify` emits
it) and a recursive-descent parser.  JSON numbers are modelled as
integers. -/

mutual
inductive Json where
  | null
  | bool (b : Bool)
  | num (n : Int)
  | str (s : String)
  | arr (elems : JsonList)
  | obj (fields : JsonFields)
inductive JsonList where
  | nil
  | cons (hd : Json) (tl : JsonList)
inductive JsonFields where
  | nil
  | cons (key : String) (val : Json) (tl : JsonFields)
end

/-- String-character escaping of `JSON.stringify`: quote and backslash get
a backslash, the named control escapes are used where they exist, the other
control characters become `\u00..`, and everything else is untouched. -/
def escapeChar (c : Char) : List Char :=
  if c = '"' then ['\\', '"']
  else if c = '\\' then ['\\', '\\']
  else if c = '\x08' then ['\\', 'b']
  else if c = '\x0c' then ['\\', 'f']
  else if c = '\n' then ['\\', 'n']
  else if c = '\r' then ['\\', 'r']
  else if c = '\t' then ['\\', 't']
  else if c.toNat < 32 then
    ['\\', 'u', '0', '0', hexDigit (c.toNat / 16), hexDigit (c.toNat % 16)]
  else [c]

/-- `escapeChar` over a whole string body. -/
def escapeChars : List Char → List Char
  | [] => []
  | c :: t => escapeChar c ++ escapeChars t

mutual
/-- Compact JSON printing, as `JSON.stringify(v)` emits it. -/
def printJson : Json → List Char
  | .null => ['n', 'u', 'l', 'l']
  | .bool b => cond b ['t', 'r', 'u', 'e'] ['f', 'a', 'l', 's', 'e']
  | .num n => intToChars n
  | .str s => '"' :: (escapeChars s.data ++ ['"'])
  | .arr es => '[' :: (printElems es ++ [']'])
  | .obj fs => '{' :: (printFields fs ++ ['}'])
/-- Array elements, comma-separated. -/
def printElems : JsonList → List Char
  | .nil => []
  | .cons hd tl => printJson hd ++ printElemsRest tl
/-- The remaining array elements, each preceded by a comma. -/
def printElemsRest : JsonList → List Char
  | .nil => []
  | .cons hd tl => ',' :: (printJson hd ++ printElemsRest tl)
/-- Object fields, comma-separated (each field prints as
`"key":value`). -/
def printFields : JsonFields → List Char
  | .nil => []
  | .cons k v tl => ('"' :: (escapeChars k.data ++ '"' :: ':' :: printJson v)) ++ printFieldsRest tl
/-- The remaining object fields, each preceded by a comma. -/
def printFieldsRest : JsonFields → List Char
  | .nil => []
  | .cons k v tl =>
    ',' :: (('"' :: (escapeChars k.data ++ '"' :: ':' :: printJson v)) ++ printFieldsRest tl)
end

/-- `JSON.stringify`. -/
def jsonStringify (v : Json) : String := ⟨printJson v⟩

/-- Skip JSON whitespace. -/
def skipWs : List Char → List Char
  | [] => []
  | c :: t => if c == ' ' || c == '\n' || c == '\r' || c == '\t' then skipWs t else c :: t

/-- The single-character JSON string escapes (after a backslash). -/
def unescapeChar (e : Char) : Option Char :=
  if e = '"' then some '"'
  else if e = '\\' then some '\\'
  else if e = '/' then some '/'
  else if e = 'b' then some '\x08'
  else if e = 'f' then some '\x0c'
  else if e = 'n' then some '\n'
  else if e = 'r' then some '\r'
  else if e = 't' then some '\t'
  else none

/-- Parse the body of a JSON string (after the opening quote), accumulating
decoded characters in reverse: a quote closes the string, a backslash
introduces a named or `\u....` escape, any other character is taken
verbatim. -/
def parseStrAux : List Char → List Char → Option (String × List Char)
  | _, [] => none
  | acc, c :: rest =>
    if c = '"' then some (⟨acc.reverse⟩, rest)
    else if c = '\\' then
      match rest with
      | 'u' :: h1 :: h2 :: h3 :: h4 :: rest3 =>
        match hexVal h1, hexVal h2, hexVal h3, hexVal h4 with
        | some a, some b, some c2, some d =>
          parseStrAux (Char.ofNat (((a * 16 + b) * 16 + c2) * 16 + d) :: acc) rest3
        | _, _, _, _ => none
      | e :: rest2 =>
        match unescapeChar e with
        | some c2 => parseStrAux (c2 :: acc) rest2
        | none => none
      | [] => none
    else parseStrAux (c :: acc) rest

/-- Longest prefix of decimal digits. -/
def takeDigits : List Char → List Char × List Char
  | [] => ([], [])
  | c :: t =>
    if c.isDigit then
      let p := takeDigits t
      (c :: p.1, p.2)
    else ([], c :: t)

/-- Parse a JSON integer (an optional minus sign and decimal digits; the
fraction/exponent forms of full JSON are outside the modelled value type). -/
def parseNumber : List Char → Option (Int × List Char)
  | [] => none
  | c :: t =>
    if c = '-' then
      match takeDigits t with
      | ([], _) => none
      | (ds, r) => some (-(charsToNat ds : Int), r)
    else
      match takeDigits (c :: t) with
      | ([], _) => none
      | (ds, r) => some ((charsToNat ds : Int), r)

/-- Check that the input starts with the expected characters, returning
the rest. -/
def expectChars : List Char → List Char → Option (List Char)
  | [], cs => some cs
  | _ :: _, [] => none
  | e :: es, c :: cs => if c = e then expectChars es cs else none

/-- Strip one expected leading character. -/
def stripLeading (c : Char) : List Char → Option (List Char)
  | [] => none
  | x :: xs => if x = c then some xs else none

mutual
/-- Fuel-indexed recursive-descent JSON parser: one value, returning the
unconsumed rest. -/
def parseJson : Nat → List Char → Option (Json × List Char)
  | 0, _ => none
  | fuel + 1, cs =>
    match skipWs cs with
    | [] => none
    | c :: rest =>
      if c = 'n' then (expectChars ['u', 'l', 'l'] rest).map (fun r => (.null, r))
      else if c = 't' then (expectChars ['r', 'u', 'e'] rest).map (fun r => (.bool true, r))
      else if c = 'f' then (expectChars ['a', 'l', 's', 'e'] rest).map (fun r => (.bool false, r))
      else if c = '"' then (parseStrAux [] rest).map (fun p => (.str p.1, p.2))
      else if c = '[' then
        match stripLeading ']' (skipWs rest) with
        | some rest2 => some (.arr .nil, rest2)
        | none => (parseElems fuel (skipWs rest)).map (fun p => (.arr p.1, p.2))
      else if c = '{' then
        match stripLeading '}' (skipWs rest) with
        | some rest2 => some (.obj .nil, rest2)
        | none => (parseFields fuel (skipWs rest)).map (fun p => (.obj p.1, p.2))
      else (parseNumber (c :: rest)).map (fun p => (.num p.1, p.2))
/-- One or more comma-separated array elements, up to the closing bracket. -/
def parseElems : Nat → List Char → Option (JsonList × List Char)
  | 0, _ => none
  | fuel + 1, cs =>
    match parseJson fuel cs with
    | none => none
    | some (v, rest) =>
      match skipWs rest with
      | [] => none
      | c :: rest2 =>
        if c = ',' then (parseElems fuel rest2).map (fun p => (.cons v p.1, p.2))
        else if c = ']' then some (.cons v .nil, rest2)
        else none
/-- One or more comma-separated object fields, up to the closing brace. -/
def parseFields : Nat → List Char → Option (JsonFields × List Char)
  | 0, _ => none
  | fuel + 1, cs =>
    match stripLeading '"' (skipWs cs) with
    | none => none
    | some rest =>
      match parseStrAux [] rest with
      | none => none
      | some (k, rest2) =>
        match stripLeading ':' (skipWs rest2) with
        | none => none
        | some rest3 =>
          match parseJson fuel rest3 with
          | none => none
          | some (v, rest4) =>
            match skipWs rest4 with
            | [] => none
            | c :: rest5 =>
              if c = ',' then (parseFields fuel rest5).map (fun p => (.cons k v p.1, p.2))
              else if c = '}' then some (.cons k v .nil, rest5)
              else none
end

/-- `JSON.parse`: parse one value, allowing trailing whitespace only;
`none` models the thrown `SyntaxError`. -/
def jsonParse (s : String) : Option Json :=
  match parseJson (s.data.length + 1) s.data with
  | some (v, rest) => if skipWs rest = [] then some v else none
  | none => none

/-- Inputs that cannot extend a decimal literal: empty, or not starting
with a digit (what follows a printed number inside a JSON document). -/
def notDigitHead : List Char → Prop
  | [] => True
  | c :: _ => c.isDigit = false

mutual
/-- Fuel sufficient for `parseJson` to re-read a printed value. -/
def fuelJson : Json → Nat
  | .null => 1
  | .bool _ => 1
  | .num _ => 1
  | .str _ => 1
  | .arr es => 1 + fuelElems es
  | .obj fs => 1 + fuelFields fs
/-- Fuel sufficient for `parseElems` on printed elements. -/
def fuelElems : JsonList → Nat
  | .nil => 1
  | .cons hd tl => 1 + max (fuelJson hd) (fuelElems tl)
/-- Fuel sufficient for `parseFields` on printed fields. -/
def fuelFields : JsonFields → Nat
  | .nil => 1
  | .cons _ v tl => 1 + max (fuelJson v) (fuelFields tl)
end

/-! ### parameterUtils (src/utils/parameterUtils.js) -/

/-- A value of the user-entered parameter map (JS primitives; an absent
entry models `undefined`). -/
inductive ParamValue where
  | null
  | str (s : String)
  | num (n : Int)
  | bool (b : Bool)
deriving Repr, DecidableEq

/-- JS `String(value)` on a parameter value. -/
def jsValueToString : ParamValue → String
  | .null => "null"
  | .str s => s
  | .num n => intToString n
  | .bool true => "true"
  | .bool false => "false"

/-- `parameterMap[paramName]`. -/
def paramLookup (pm : List (String × ParamValue)) (k : String) : Option ParamValue :=
  (pm.find? (fun p => p.1 = k)).map (·.2)

/-- The regex word character class `\w`. -/
def wordChar (c : Char) : Bool := c.isAlphanum || c == '_'

/-- One attempted match of the regex pattern at the current position: two
opening braces, one or more word characters, two closing braces; on
success, the captured name and the rest of the input. -/
def matchPlaceholder (cs : List Char) : Option (String × List Char) :=
  match cs with
  | c1 :: c2 :: rest2 =>
    if c1 = '{' ∧ c2 = '{' then
      match rest2.dropWhile wordChar with
      | d1 :: d2 :: rest3 =>
        if rest2.takeWhile wordChar ≠ [] ∧ d1 = '}' ∧ d2 = '}' then
          some (⟨rest2.takeWhile wordChar⟩, rest3)
        else none
      | _ => none
    else none
  | _ => none

/-- The replacement the callback emits for a matched placeholder: the
string form of the parameter's value, or the match kept verbatim when the
parameter is absent (`undefined`) or `null`. -/
def placeholderReplacement (pm : List (String × ParamValue)) (nm : String) : List Char :=
  match paramLookup pm nm with
  | none => '{' :: '{' :: (nm.data ++ ['}', '}'])
  | some .null => '{' :: '{' :: (nm.data ++ ['}', '}'])
  | some v => (jsValueToString v).data

/-- The scanner of the global regex replace in `replaceParametersInString`:
at each position, a placeholder occurrence is replaced by the callback's
result and scanning resumes after it; otherwise one character is emitted
and scanning advances.  Fuel-indexed (any bound above the input length)
to keep the recursion structural. -/
def replaceCharsF (pm : List (String × ParamValue)) : Nat → List Char → List Char
  | 0, cs => cs
  | _ + 1, [] => []
  | fuel + 1, c :: rest =>
    match matchPlaceholder (c :: rest) with
    | some (nm, rest3) => placeholderReplacement pm nm ++ replaceCharsF pm fuel rest3
    | none => c :: replaceCharsF pm fuel rest

/-- `replaceParametersInString(text, parameterMap)`. -/
def replaceParametersInString (text : String) (pm : List (String × ParamValue)) : String :=
  ⟨replaceCharsF pm (text.data.length + 1) text.data⟩

mutual
/-- `replaceParametersInObject(value, parameterMap)`: strings get the
placeholder substitution, arrays and objects recurse (keys untouched),
null/number/boolean leaves pass through. -/
def replaceParametersInObject : Json → List (String × ParamValue) → Json
  | .null, _ => .null
  | .str s, pm => .str (replaceParametersInString s pm)
  | .arr es, pm => .arr (replaceParamsInElems es pm)
  | .obj fs, pm => .obj (replaceParamsInFields fs pm)
  | .num n, _ => .num n
  | .bool b, _ => .bool b
/-- `replaceParametersInObject` mapped over array elements. -/
def replaceParamsInElems : JsonList → List (String × ParamValue) → JsonList
  | .nil, _ => .nil
  | .cons hd tl, pm => .cons (replaceParametersInObject hd pm) (replaceParamsInElems tl pm)
/-- `replaceParametersInObject` mapped over object field values. -/
def replaceParamsInFields : JsonFields → List (String × ParamValue) → JsonFields
  | .nil, _ => .nil
  | .cons k v tl, pm => .cons k (replaceParametersInObject v pm) (replaceParamsInFields tl pm)
end

/-! ### HyperliquidApiService (src/api/hyperliquidService.js) -/

/-- One entry of an endpoint's `params` array (only its presence matters to
the service; the playground uses the rest). -/
structure ParamConfig where
  name : String
  required : Bool := false
deriving Repr, DecidableEq

/-- An endpoint configuration object (src/config/endpoints.js). -/
structure EndpointConfig where
  id : String
  name : String
  method : String
  url : String
  headers : List (String × String)
  body : Option Json
  params : Option (List ParamConfig)

/-- JS truthiness of a JSON value. -/
def jsTruthyJson : Json → Bool
  | .null => false
  | .bool b => b
  | .num n => n != 0
  | .str s => s != ""
  | .arr _ => true
  | .obj _ => true

/-- The request configuration `_prepareRequest` builds. -/
structure RequestConfig where
  method : String
  headers : List (String × String)
  url : String
  body : Option String

/-- `this.defaultHeaders`. -/
def defaultHeaders : List (String × String) := [("Content-Type", "application/json")]

/-- `_prepareRequest(endpoint, parameters)`: substitute the parameters into
the body template when the endpoint declares parameters, merge the default
headers with the endpoint's, and stringify the body for POST requests. -/
def prepareRequest (endpoint : EndpointConfig) (parameters : List (String × ParamValue)) :
    RequestConfig :=
  let requestBody : Option Json :=
    match endpoint.params with
    | some ps =>
      if ps.length > 0 then endpoint.body.map (fun b => replaceParametersInObject b parameters)
      else endpoint.body
    | none => endpoint.body
  { method := endpoint.method
    headers := objectSpread defaultHeaders endpoint.headers
    url := endpoint.url
    body :=
      if endpoint.method = "POST" then
        match requestBody with
        | some b => if jsTruthyJson b then some (jsonStringify b) else none
        | none => none
      else none }

/-- What `fetch` resolved to: the HTTP status, whether the `content-type`
header includes `application/json`, and the body text. -/
structure HttpResponse where
  status : Nat
  statusText : String
  contentTypeJson : Bool
  bodyText : String

/-- `response.ok`: status in the range 200..299. -/
def respOk (r : HttpResponse) : Bool := 200 ≤ r.status && r.status < 300

/-- The processed body: parsed JSON for JSON responses, raw text otherwise. -/
inductive ProcessedData where
  | jsonData (v : Json)
  | textData (s : String)

/-- The message of the `SyntaxError` thrown by `JSON.parse` on a bad body
(environment-supplied text; every engine's message names JSON). -/
def jsonParseErrorMessage : String := "Unexpected token: the response body is not valid JSON"

/-- `_processResponse(response)`: throw (`Except.error`) on a non-ok
status, otherwise parse JSON bodies and pass text bodies through. -/
def processResponse (r : HttpResponse) : Except String ProcessedData :=
  if respOk r = false then
    .error ("HTTP " ++ natToString r.status ++ ": " ++ r.bodyText)
  else if r.contentTypeJson then
    match jsonParse r.bodyText with
    | some v => .ok (.jsonData v)
    | none => .error jsonParseErrorMessage
  else .ok (.textData r.bodyText)

/-- How the `fetch` call ended: rejected (network failure) or resolved with
a response. -/
inductive FetchOutcome where
  | fetchFailed (message : String)
  | completed (response : HttpResponse)

/-- `_extractErrorDetails(error)` (the stack lines are environment data and
are not modelled). -/
structure ErrorDetails where
  name : String
  message : String

/-- The `error` record of a failed `executeRequest`. -/
structure ErrorRecord where
  message : String
  type : String
  details : ErrorDetails

/-- `_classifyError(error)`, acting on the error's message. -/
def classifyError (message : String) : String :=
  if jsIncludes message "fetch" then "network"
  else if jsIncludes message "HTTP 4" then "client"
  else if jsIncludes message "HTTP 5" then "server"
  else if jsIncludes message "JSON" then "parsing"
  else "unknown"

/-- What `executeRequest` resolves to: the success shape or the error shape
(the timestamp is environment data and is not modelled). -/
structure ApiResult where
  success : Bool
  status : Option Nat
  statusText : Option String
  data : Option ProcessedData
  error : Option ErrorRecord

/-- The catch-branch result of `executeRequest`. -/
def mkErrorResult (msg : String) : ApiResult :=
  { success := false
    status := none
    statusText := none
    data := none
    error := some
      { message := msg
        type := classifyError msg
        details := { name := "Error", message := msg } } }

/-- `executeRequest(endpoint, parameters)`, with the network abstracted
into the `outcome` argument: the try-branch builds the success object from
the processed response, and every thrown error (fetch rejection, non-ok
status, JSON parse failure) lands in the catch-branch result. -/
def executeRequest (endpoint : EndpointConfig) (parameters : List (String × ParamValue))
    (outcome : FetchOutcome) : ApiResult :=
  let _config := prepareRequest endpoint parameters
  match outcome with
  | .fetchFailed msg => mkErrorResult msg
  | .completed resp =>
    match processResponse resp with
    | .ok d =>
      { success := true
        status := some resp.status
        statusText := some resp.statusText
        data := some d
        error := none }
    | .error msg => mkErrorResult msg

/-- The `l2Book` configuration of `PUBLIC_ENDPOINTS`
(src/config/endpoints.js); its body template is the object with `type` set
to `l2Book` and `coin` set to the `coin` placeholder. -/
def l2BookEndpoint : EndpointConfig :=
  { id := "l2Book"
    name := "L2 Book (Livre d'ordres)"
    method := "POST"
    url := "https://api.hyperliquid.xyz/info"
    headers := [("Content-Type", "application/json")]
    body := some (.obj (.cons "type" (.str "l2Book")
      (.cons "coin" (.str "\x7b\x7bcoin\x7d\x7d") .nil)))
    params := some [{ name := "coin", required := true }] }

/-! ### ApiPlayground WebSocket handling (ApiPlayground.jsx)

The component keeps a single `wsRef`; `openWS` closes the referenced
connection (if any) before constructing a new `WebSocket`, `closeWS`
closes it and clears the ref.  Connections are numbered in creation
order; a connection the component has called `close()` on never fires
`onopen` (the browser aborts a closing handshake), so `sockOpened` only
promotes a connection that is still connecting. -/

/-- The lifecycle status of one `WebSocket` object. -/
inductive ConnStatus where
  | connecting
  | opened
  | closed
deriving Repr, DecidableEq

/-- The component's connection state: the status of every `WebSocket` ever
created, and which one `wsRef.current` points at. -/
structure WsState where
  conns : List ConnStatus
  ref : Option Nat
deriving Repr, DecidableEq

/-- Initial component state: no sockets, empty ref. -/
def WsState.init : WsState := { conns := [], ref := none }

/-- `ws.close()` on connection `i`. -/
def closeConn (conns : List ConnStatus) (i : Nat) : List ConnStatus :=
  conns.set i .closed

/-- The events that drive the component's WebSocket state. -/
inductive WsEvent where
  | openWS
  | closeWS
  | sockOpened (i : Nat)
  | sockClosed (i : Nat)
  | sockError (i : Nat)
deriving Repr, DecidableEq

/-- One step of the component's WebSocket handling. -/
def wsStep (st : WsState) (ev : WsEvent) : WsState :=
  match ev with
  | .openWS =>
    let conns :=
      match st.ref with
      | some i => closeConn st.conns i
      | none => st.conns
    { conns := conns ++ [.connecting], ref := some conns.length }
  | .closeWS =>
    match st.ref with
    | some i => { conns := closeConn st.conns i, ref := none }
    | none => st
  | .sockOpened i =>
    if st.conns.get? i = some .connecting then { st with conns := st.conns.set i .opened }
    else st
  | .sockClosed i => { st with conns := st.conns.set i .closed }
  | .sockError _ => st

/-- The state after a sequence of events from the initial state. -/
def wsRun (evs : List WsEvent) : WsState := evs.foldl wsStep WsState.init

/-- How many connections are live (not closed). -/
def liveCount (st : WsState) : Nat :=
  (st.conns.filter (fun s => s ≠ ConnStatus.closed)).length

/-- The component invariant: every connection not referenced by `wsRef` is
closed (or out of range). -/
def WsInv (st : WsState) : Prop :=
  ∀ i : Nat, st.ref ≠ some i →
    st.conns.get? i = some ConnStatus.closed ∨ st.conns.get? i = none

/-! ### useLocalState (ApiPlayground.jsx) and localStorage -/

/-- The initial-state reader of `useLocalState(key, initial)`:
`localStorage.getItem(key)` (modelled as a string-valued object), then
parse the raw entry if it is present and non-empty, falling back to
`initial` when the entry is absent, empty (falsy) or throws on parsing. -/
def useLocalStateInit (store : List (String × String)) (key : String) (initial : Json) : Json :=
  match jsMapGet store key with
  | some raw =>
    if raw = "" then initial
    else
      match jsonParse raw with
      | some v => v
      | none => initial
  | none => initial

/-- The persisting effect of `useLocalState`:
`localStorage.setItem(key, JSON.stringify(val))`. -/
def writeLocalState (store : List (String × String)) (key : String) (val : Json) :
    List (String × String) :=
  jsMapSet store key (jsonStringify val)

/-- The key of the selected endpoint (`useLocalState` call site). -/
def playgroundEndpointKey : String := "cookie.playground.endpoint"

/-- The per-endpoint parameter key (`useLocalState` call site). -/
def playgroundParamsKey (endpointId : String) : String :=
  "cookie.playground.params." ++ endpointId

/-!
## Theorems

Helper lemmas first, then one theorem per claim (with witnesses and
counterexamples where the claim calls for them).
-/

/-! ### Decimal-digit lemmas -/

theorem digitVal_decDigit {n : Nat} (h : n < 10) : digitVal (decDigit n) = n := by
  interval_cases n <;> decide

theorem isDigit_decDigit {n : Nat} (h : n < 10) : (decDigit n).isDigit = true := by
  interval_cases n <;> decide

theorem natToCharsCore_append (fuel : Nat) :
    ∀ n acc, natToCharsCore fuel n acc = natToCharsCore fuel n [] ++ acc := by
  induction fuel with
  | zero => intro n acc; simp [natToCharsCore]
  | succ fuel ih =>
    intro n acc
    by_cases h : n = 0
    · simp [natToCharsCore, h]
    · rw [natToCharsCore, if_neg h, ih (n / 10) (decDigit (n % 10) :: acc)]
      conv_rhs => rw [natToCharsCore, if_neg h, ih (n / 10) [decDigit (n % 10)]]
      simp

theorem charsToNat_natToCharsCore (fuel : Nat) :
    ∀ n, n ≤ fuel → charsToNat (natToCharsCore fuel n []) = n := by
  induction fuel with
  | zero => intro n hn; interval_cases n; simp [natToCharsCore, charsToNat]
  | succ fuel ih =>
    intro n hn
    by_cases h : n = 0
    · simp [natToCharsCore, h, charsToNat]
    · have hdiv : n / 10 ≤ fuel := by
        have := Nat.div_lt_self (Nat.pos_of_ne_zero h) (show 1 < 10 by decide)
        omega
      rw [natToCharsCore, if_neg h, natToCharsCore_append]
      have hih := ih (n / 10) hdiv
      unfold charsToNat at hih ⊢
      rw [List.foldl_append, hih]
      simp only [List.foldl_cons, List.foldl_nil,
        digitVal_decDigit (Nat.mod_lt n (show 0 < 10 by decide))]
      omega

theorem charsToNat_natToChars (n : Nat) : charsToNat (natToChars n) = n := by
  by_cases h : n = 0
  · subst h; rfl
  · rw [natToChars, if_neg h, charsToNat_natToCharsCore n n (Nat.le_refl n)]

theorem natToChars_injective : Function.Injective natToChars := by
  intro a b hab
  have := charsToNat_natToChars a
  rw [hab, charsToNat_natToChars] at this
  omega

theorem natToString_injective : Function.Injective natToString := by
  intro a b hab
  exact natToChars_injective (congrArg String.data hab)

theorem natToCharsCore_ne_nil {fuel n : Nat} (h : n ≠ 0) (hle : n ≤ fuel) :
    natToCharsCore fuel n [] ≠ [] := by
  cases fuel with
  | zero => omega
  | succ fuel =>
    rw [natToCharsCore, if_neg h, natToCharsCore_append]
    simp

theorem natToChars_ne_nil (n : Nat) : natToChars n ≠ [] := by
  by_cases h : n = 0
  · simp [natToChars, h]
  · rw [natToChars, if_neg h]; exact natToCharsCore_ne_nil h (Nat.le_refl n)

theorem natToCharsCore_digits (fuel : Nat) :
    ∀ n, ∀ c ∈ natToCharsCore fuel n [], c.isDigit = true := by
  induction fuel with
  | zero => intro n c hc; simp [natToCharsCore] at hc
  | succ fuel ih =>
    intro n c hc
    by_cases h : n = 0
    · simp [natToCharsCore, h] at hc
    · rw [natToCharsCore, if_neg h, natToCharsCore_append] at hc
      rcases List.mem_append.1 hc with h1 | h1
      · exact ih (n / 10) c h1
      · rcases List.mem_singleton.1 h1 with rfl
        exact isDigit_decDigit (Nat.mod_lt n (by decide))

theorem natToChars_digits (n : Nat) : ∀ c ∈ natToChars n, c.isDigit = true := by
  by_cases h : n = 0
  · intro c hc
    rw [natToChars, if_pos h] at hc
    rcases List.mem_singleton.1 hc with rfl
    decide
  · rw [natToChars, if_neg h]; exact natToCharsCore_digits n n

/-! ### Map-helper and `loadMetadata` lemmas -/

theorem jsMapSet_fresh (m : List (String × String)) (k v : String)
    (h : ∀ q ∈ m, q.1 ≠ k) : jsMapSet m k v = m ++ [(k, v)] := by
  rw [jsMapSet, if_neg]
  intro hc
  rcases List.any_eq_true.1 hc with ⟨q, hq, hq2⟩
  exact h q hq (by simpa using hq2)

theorem jsMapGet_of_mem {m : List (String × String)} {k v : String}
    (hnd : (m.map Prod.fst).Nodup) (hmem : (k, v) ∈ m) : jsMapGet m k = some v := by
  induction m with
  | nil => simp at hmem
  | cons hd tl ih =>
    rcases List.mem_cons.1 hmem with rfl | hmem'
    · simp [jsMapGet, List.find?]
    · rw [List.map_cons, List.nodup_cons] at hnd
      have hne : hd.1 ≠ k := by
        intro hk
        exact hnd.1 (hk ▸ (List.mem_map.2 ⟨(k, v), hmem', rfl⟩))
      have hrec := ih hnd.2 hmem'
      rw [jsMapGet] at hrec ⊢
      rw [List.find?_cons_of_neg _ (by simpa using hne)]
      exact hrec

/-- The simultaneous fold of `loadMetadata`, over an arbitrary list of
`(index, asset)` pairs: when all inserted keys are fresh, both maps are the
accumulators extended with one binding per pair. -/
theorem loadMetadata_fold (l : List (Nat × Asset)) :
    ∀ acc1 acc2 : List (String × String),
    (∀ p ∈ l, ∀ q ∈ acc1, q.1 ≠ natToString p.1) →
    (∀ p ∈ l, ∀ q ∈ acc2, q.1 ≠ p.2.name) →
    (l.map (fun p => natToString p.1)).Nodup →
    (l.map (fun p => p.2.name)).Nodup →
    l.foldl
      (fun (m : List (String × String) × List (String × String)) p =>
        (jsMapSet m.1 (natToString p.1) p.2.name,
         jsMapSet m.2 p.2.name (natToString p.1)))
      (acc1, acc2)
    = (acc1 ++ l.map (fun p => (natToString p.1, p.2.name)),
       acc2 ++ l.map (fun p => (p.2.name, natToString p.1))) := by
  induction l with
  | nil => intro acc1 acc2 _ _ _ _; simp
  | cons hd tl ih =>
    intro acc1 acc2 h1 h2 hn1 hn2
    rw [List.map_cons, List.nodup_cons] at hn1 hn2
    rw [List.foldl_cons]
    rw [jsMapSet_fresh acc1 _ _ (h1 hd (List.mem_cons_self hd tl)),
      jsMapSet_fresh acc2 _ _ (h2 hd (List.mem_cons_self hd tl))]
    rw [ih (acc1 ++ [(natToString hd.1, hd.2.name)])
          (acc2 ++ [(hd.2.name, natToString hd.1)])
          (fun p hp q hq => by
            rcases List.mem_append.1 hq with hq' | hq'
            · exact h1 p (List.mem_cons_of_mem hd hp) q hq'
            · rcases List.mem_singleton.1 hq' with rfl
              intro hk
              refine hn1.1 ?_
              rw [show natToString hd.1 = natToString p.1 from hk]
              exact List.mem_map.2 ⟨p, hp, rfl⟩)
          (fun p hp q hq => by
            rcases List.mem_append.1 hq with hq' | hq'
            · exact h2 p (List.mem_cons_of_mem hd hp) q hq'
            · rcases List.mem_singleton.1 hq' with rfl
              intro hk
              refine hn2.1 ?_
              rw [show hd.2.name = p.2.name from hk]
              exact List.mem_map.2 ⟨p, hp, rfl⟩)
          hn1.2 hn2.2]
    simp

/-- With pairwise-distinct asset names, `loadMetadata` rebuilds both maps
as the positional enumeration of the universe, whatever the previous maps
contained. -/
theorem loadMetadata_maps (st : MappingState) (mr : MetaResponse)
    (h : (mr.univ.map Asset.name).Nodup) :
    (loadMetadata st mr).idToNameMap
        = mr.univ.enum.map (fun p => (natToString p.1, p.2.name))
      ∧ (loadMetadata st mr).nameToIdMap
        = mr.univ.enum.map (fun p => (p.2.name, natToString p.1)) := by
  have hn1 : (mr.univ.enum.map (fun p => natToString p.1)).Nodup := by
    have heq : mr.univ.enum.map (fun p => natToString p.1)
        = (mr.univ.enum.map Prod.fst).map natToString := by
      rw [List.map_map]; rfl
    rw [heq, List.enum_map_fst]
    exact (List.nodup_range _).map natToString_injective
  have hn2 : (mr.univ.enum.map (fun p => p.2.name)).Nodup := by
    have heq : mr.univ.enum.map (fun p => p.2.name)
        = (mr.univ.enum.map Prod.snd).map Asset.name := by
      rw [List.map_map]; rfl
    rw [heq, List.enum_map_snd]
    exact h
  have hfold := loadMetadata_fold mr.univ.enum [] []
    (fun p _ q hq => absurd hq (List.not_mem_nil q))
    (fun p _ q hq => absurd hq (List.not_mem_nil q)) hn1 hn2
  refine ⟨?_, ?_⟩
  · show (mr.univ.enum.foldl _ ([], [])).1 = _
    rw [hfold]
    rfl
  · show (mr.univ.enum.foldl _ ([], [])).2 = _
    rw [hfold]
    rfl

theorem jsMapSet_cons_ne {hd : String × String} {k : String} (h : hd.1 ≠ k)
    (tl : List (String × String)) (v : String) :
    jsMapSet (hd :: tl) k v = hd :: jsMapSet tl k v := by
  unfold jsMapSet
  rw [List.any_cons]
  simp only [decide_eq_false h, Bool.false_or]
  by_cases ha : tl.any (fun p => p.1 = k)
  · rw [if_pos ha, if_pos ha, List.map_cons, if_neg h]
  · rw [if_neg ha, if_neg ha, List.cons_append]

theorem jsMapGet_cons_ne {hd : String × String} {k : String} (h : hd.1 ≠ k)
    (rest : List (String × String)) :
    jsMapGet (hd :: rest) k = jsMapGet rest k := by
  rw [jsMapGet, jsMapGet, List.find?_cons_of_neg _ (by simpa using h)]

/-- Reading back the key just written into a JS map. -/
theorem jsMapGet_jsMapSet_self (m : List (String × String)) (k v : String) :
    jsMapGet (jsMapSet m k v) k = some v := by
  induction m with
  | nil =>
    rw [jsMapSet, if_neg (by simp), List.nil_append, jsMapGet,
      List.find?_cons_of_pos _ (by simp)]
    rfl
  | cons hd tl ih =>
    by_cases hk : hd.1 = k
    · rw [jsMapSet, if_pos (List.any_eq_true.2 ⟨hd, List.mem_cons_self hd tl, by simp [hk]⟩),
        List.map_cons, if_pos hk, jsMapGet, List.find?_cons_of_pos _ (by simp)]
      rfl
    · rw [jsMapSet_cons_ne hk, jsMapGet_cons_ne hk]
      exact ih

/-- A fresh-key insertion fold over a single JS object: with pairwise
distinct produced keys that avoid the accumulator, the built object is the
accumulator extended with one binding per entry. -/
theorem foldl_jsMapSet_map (f : String → String) (l : List (String × String)) :
    ∀ acc : List (String × String),
    (∀ p ∈ l, ∀ q ∈ acc, q.1 ≠ f p.1) →
    (l.map (fun p => f p.1)).Nodup →
    l.foldl (fun t p => jsMapSet t (f p.1) p.2) acc = acc ++ l.map (fun p => (f p.1, p.2)) := by
  induction l with
  | nil => intro acc _ _; simp
  | cons hd tl ih =>
    intro acc h1 hn
    rw [List.map_cons, List.nodup_cons] at hn
    rw [List.foldl_cons, jsMapSet_fresh acc _ _ (h1 hd (List.mem_cons_self hd tl)),
      ih (acc ++ [(f hd.1, hd.2)])
        (fun p hp q hq => by
          rcases List.mem_append.1 hq with hq' | hq'
          · exact h1 p (List.mem_cons_of_mem hd hp) q hq'
          · rcases List.mem_singleton.1 hq' with rfl
            intro hkk
            refine hn.1 ?_
            rw [show f hd.1 = f p.1 from hkk]
            exact List.mem_map.2 ⟨p, hp, rfl⟩)
        hn.2]
    simp

/-! ### Lookup lemmas on an initialized mapping state -/

theorem initialized_idToNameMap (mr : MetaResponse)
    (h : (mr.univ.map Asset.name).Nodup) :
    (MappingState.initialized mr).idToNameMap
      = mr.univ.enum.map (fun p => (natToString p.1, p.2.name)) :=
  (loadMetadata_maps { MappingState.init with metadata := some mr } mr h).1

theorem initialized_nameToIdMap (mr : MetaResponse)
    (h : (mr.univ.map Asset.name).Nodup) :
    (MappingState.initialized mr).nameToIdMap
      = mr.univ.enum.map (fun p => (p.2.name, natToString p.1)) :=
  (loadMetadata_maps { MappingState.init with metadata := some mr } mr h).2

theorem initialized_isLoaded (mr : MetaResponse) :
    (MappingState.initialized mr).isLoaded = true := rfl

theorem initialized_metadata (mr : MetaResponse) :
    (MappingState.initialized mr).metadata = some mr := rfl

theorem mem_enum_of_lt {l : List Asset} {i : Nat} (hi : i < l.length) :
    (i, l.get ⟨i, hi⟩) ∈ l.enum := by
  have : l.enum.get? i = some (i, l.get ⟨i, hi⟩) := by
    rw [List.get?_enum]
    rw [List.get?_eq_get hi]
    rfl
  exact List.get?_mem this

theorem fwd_keys_nodup (mr : MetaResponse) :
    ((mr.univ.enum.map (fun p => (natToString p.1, p.2.name))).map Prod.fst).Nodup := by
  rw [List.map_map]
  have heq : mr.univ.enum.map (Prod.fst ∘ fun p : Nat × Asset => (natToString p.1, p.2.name))
      = (mr.univ.enum.map Prod.fst).map natToString := by
    rw [List.map_map]; rfl
  rw [heq, List.enum_map_fst]
  exact (List.nodup_range _).map natToString_injective

theorem inv_keys_nodup (mr : MetaResponse) (h : (mr.univ.map Asset.name).Nodup) :
    ((mr.univ.enum.map (fun p => (p.2.name, natToString p.1))).map Prod.fst).Nodup := by
  rw [List.map_map]
  have heq : mr.univ.enum.map (Prod.fst ∘ fun p : Nat × Asset => (p.2.name, natToString p.1))
      = (mr.univ.enum.map Prod.snd).map Asset.name := by
    rw [List.map_map]; rfl
  rw [heq, List.enum_map_snd]
  exact h

/-- In an initialized state with distinct names, `getAssetName` of a
positional id returns the asset's name (when that name is nonempty). -/
theorem getAssetName_initialized (mr : MetaResponse)
    (hnd : (mr.univ.map Asset.name).Nodup) {i : Nat} (hi : i < mr.univ.length)
    (hne : (mr.univ.get ⟨i, hi⟩).name ≠ "") :
    getAssetName (MappingState.initialized mr) (natToString i)
      = some (mr.univ.get ⟨i, hi⟩).name := by
  rw [getAssetName, if_neg (by rw [initialized_isLoaded]; simp),
    initialized_idToNameMap mr hnd]
  rw [jsMapGet_of_mem (fwd_keys_nodup mr)
    (List.mem_map.2 ⟨(i, mr.univ.get ⟨i, hi⟩), mem_enum_of_lt hi, rfl⟩)]
  have hne2 : ¬ mr.univ[i].name = "" := by simpa using hne
  simp [hne2]

/-- In an initialized state with distinct names, `getAssetId` of an
uppercase-fixed asset name returns its positional id. -/
theorem getAssetId_initialized (mr : MetaResponse)
    (hnd : (mr.univ.map Asset.name).Nodup) {i : Nat} (hi : i < mr.univ.length)
    (hup : jsToUpper (mr.univ.get ⟨i, hi⟩).name = (mr.univ.get ⟨i, hi⟩).name) :
    getAssetId (MappingState.initialized mr) (mr.univ.get ⟨i, hi⟩).name
      = some (natToString i) := by
  rw [getAssetId, if_neg (by rw [initialized_isLoaded]; simp),
    initialized_nameToIdMap mr hnd, hup]
  rw [jsMapGet_of_mem (inv_keys_nodup mr hnd)
    (List.mem_map.2 ⟨(i, mr.univ.get ⟨i, hi⟩), mem_enum_of_lt hi, rfl⟩)]
  have hid : natToString i ≠ "" := fun hc => natToChars_ne_nil i (congrArg String.data hc)
  simp [hid]

/-! ### Claim theorems -/

/-- **C1.** For every meta response whose universe has pairwise-distinct
asset names, `loadMetadata` rebuilds both maps wholesale, whatever the
previous maps held: the forward map is exactly the list of pairs
`(String(i), universe[i].name)` in positional order, the inverse map
exactly the list of the swapped pairs, and looking up any positional id
(resp. name) yields the matching name (resp. id). -/
theorem loadMetadata_rebuilds_wholesale (st : MappingState) (mr : MetaResponse)
    (h : (mr.univ.map Asset.name).Nodup) :
    (loadMetadata st mr).idToNameMap
        = mr.univ.enum.map (fun p => (natToString p.1, p.2.name))
  ∧ (loadMetadata st mr).nameToIdMap
        = mr.univ.enum.map (fun p => (p.2.name, natToString p.1))
  ∧ ∀ i : Nat, ∀ hi : i < mr.univ.length,
      jsMapGet (loadMetadata st mr).idToNameMap (natToString i)
          = some (mr.univ.get ⟨i, hi⟩).name
        ∧ jsMapGet (loadMetadata st mr).nameToIdMap (mr.univ.get ⟨i, hi⟩).name
          = some (natToString i) := by
  obtain ⟨h1, h2⟩ := loadMetadata_maps st mr h
  refine ⟨h1, h2, fun i hi => ⟨?_, ?_⟩⟩
  · rw [h1]
    exact jsMapGet_of_mem (fwd_keys_nodup mr)
      (List.mem_map.2 ⟨(i, mr.univ.get ⟨i, hi⟩), mem_enum_of_lt hi, rfl⟩)
  · rw [h2]
    exact jsMapGet_of_mem (inv_keys_nodup mr h)
      (List.mem_map.2 ⟨(i, mr.univ.get ⟨i, hi⟩), mem_enum_of_lt hi, rfl⟩)

/-- **C1 witness**: a two-asset universe loaded over non-empty stale maps. -/
theorem loadMetadata_rebuilds_wholesale_witness :
    (loadMetadata
        { idToNameMap := [("9", "OLD")], nameToIdMap := [("OLD", "9")],
          isLoaded := true, metadata := none }
        ⟨[⟨"BTC"⟩, ⟨"ETH"⟩]⟩).idToNameMap = [("0", "BTC"), ("1", "ETH")]
  ∧ (loadMetadata
        { idToNameMap := [("9", "OLD")], nameToIdMap := [("OLD", "9")],
          isLoaded := true, metadata := none }
        ⟨[⟨"BTC"⟩, ⟨"ETH"⟩]⟩).nameToIdMap = [("BTC", "0"), ("ETH", "1")] := by
  have h := loadMetadata_rebuilds_wholesale
    { idToNameMap := [("9", "OLD")], nameToIdMap := [("OLD", "9")],
      isLoaded := true, metadata := none }
    ⟨[⟨"BTC"⟩, ⟨"ETH"⟩]⟩ (by decide)
  exact ⟨h.1, h.2.1⟩

/-- **C2 counterexample.** The round-trip fails as stated: in a loaded
universe whose only asset is named `kPEPE` (a real Hyperliquid spelling),
`getAssetName("0")` returns `kPEPE`, but `getAssetId("kPEPE")` uppercases
its argument to `KPEPE` before the inverse lookup and returns `null`
instead of `"0"`. -/
theorem roundtrip_fails_for_lowercase_name :
    getAssetName (MappingState.initialized ⟨[⟨"kPEPE"⟩]⟩) "0" = some "kPEPE"
  ∧ getAssetId (MappingState.initialized ⟨[⟨"kPEPE"⟩]⟩) "kPEPE" = none := by
  exact ⟨by decide, by decide⟩

/-- **C2 (amended).** In a loaded universe whose asset names are pairwise
distinct, non-empty and fixed by `toUpperCase`, the public lookups are
mutual inverses: `getAssetName(String(i))` returns `universe[i].name` and
`getAssetId` of that name returns `String(i)`; symmetrically, every
universe name round-trips through `getAssetId` then `getAssetName`. -/
theorem mapping_lookups_mutual_inverses (mr : MetaResponse)
    (hnd : (mr.univ.map Asset.name).Nodup)
    (hne : ∀ a ∈ mr.univ, a.name ≠ "")
    (hup : ∀ a ∈ mr.univ, jsToUpper a.name = a.name) :
    (∀ i : Nat, ∀ hi : i < mr.univ.length,
        getAssetName (MappingState.initialized mr) (natToString i)
            = some (mr.univ.get ⟨i, hi⟩).name
          ∧ getAssetId (MappingState.initialized mr) (mr.univ.get ⟨i, hi⟩).name
            = some (natToString i))
  ∧ ∀ a ∈ mr.univ,
      ∃ id, getAssetId (MappingState.initialized mr) a.name = some id
        ∧ getAssetName (MappingState.initialized mr) id = some a.name := by
  constructor
  · intro i hi
    exact ⟨getAssetName_initialized mr hnd hi (hne _ (List.get_mem mr.univ i hi)),
      getAssetId_initialized mr hnd hi (hup _ (List.get_mem mr.univ i hi))⟩
  · intro a ha
    rcases List.mem_iff_get.1 ha with ⟨⟨i, hi⟩, rfl⟩
    exact ⟨natToString i,
      getAssetId_initialized mr hnd hi (hup _ (List.get_mem mr.univ i hi)),
      getAssetName_initialized mr hnd hi (hne _ (List.get_mem mr.univ i hi))⟩

/-- **C2 witness**: a two-asset uppercase universe, round-tripped at index 1. -/
theorem mapping_lookups_mutual_inverses_witness :
    getAssetName (MappingState.initialized ⟨[⟨"BTC"⟩, ⟨"SOL"⟩]⟩) "1" = some "SOL"
  ∧ getAssetId (MappingState.initialized ⟨[⟨"BTC"⟩, ⟨"SOL"⟩]⟩) "SOL" = some "1" := by
  have h := (mapping_lookups_mutual_inverses ⟨[⟨"BTC"⟩, ⟨"SOL"⟩]⟩
    (by decide) (by decide) (by decide)).1 1 (by decide)
  exact ⟨h.1, h.2⟩

/-- **C6.** The error classifier is total and lands every message in
exactly one coarse bucket, tested in priority order: `network` when the
message contains `fetch`; otherwise `client` on `HTTP 4`; otherwise
`server` on `HTTP 5`; otherwise `parsing` on `JSON`; `unknown` in all
remaining cases. -/
theorem classifyError_buckets (msg : String) :
    (classifyError msg = "network" ↔ jsIncludes msg "fetch" = true)
  ∧ (classifyError msg = "client" ↔
      jsIncludes msg "fetch" = false ∧ jsIncludes msg "HTTP 4" = true)
  ∧ (classifyError msg = "server" ↔
      jsIncludes msg "fetch" = false ∧ jsIncludes msg "HTTP 4" = false
        ∧ jsIncludes msg "HTTP 5" = true)
  ∧ (classifyError msg = "parsing" ↔
      jsIncludes msg "fetch" = false ∧ jsIncludes msg "HTTP 4" = false
        ∧ jsIncludes msg "HTTP 5" = false ∧ jsIncludes msg "JSON" = true)
  ∧ (classifyError msg = "unknown" ↔
      jsIncludes msg "fetch" = false ∧ jsIncludes msg "HTTP 4" = false
        ∧ jsIncludes msg "HTTP 5" = false ∧ jsIncludes msg "JSON" = false) := by
  by_cases h1 : jsIncludes msg "fetch" <;>
    by_cases h2 : jsIncludes msg "HTTP 4" <;>
      by_cases h3 : jsIncludes msg "HTTP 5" <;>
        by_cases h4 : jsIncludes msg "JSON" <;>
          simp [classifyError, h1, h2, h3, h4]

/-- **C8 counterexample.** The stated entry-count preservation fails: with
the loaded single-asset universe named `UNKNOWN_1` (names pairwise
distinct), the input keys `0` and `1` both rename to `UNKNOWN_1` — `0`
through the mapping and `1` through the unknown-id fallback — so the
two-entry input collapses to one entry and the value of key `0` is lost. -/
theorem transformAllMids_key_collision :
    transformAllMidsResponse (MappingState.initialized ⟨[⟨"UNKNOWN_1"⟩]⟩)
        [("0", "a"), ("1", "b")]
      = [("UNKNOWN_1", "b")]
  ∧ (transformAllMidsResponse (MappingState.initialized ⟨[⟨"UNKNOWN_1"⟩]⟩)
        [("0", "a"), ("1", "b")]).length
      ≠ ([("0", "a"), ("1", "b")] : List (String × String)).length := by
  exact ⟨by decide, by decide⟩

/-- **C8 (amended).** When the service is not loaded the input object is
returned unchanged.  When it is loaded, each entry's key is renamed to
`getAssetName(id)` when that lookup finds a name and to `UNKNOWN_` + id
otherwise, values unchanged — and, provided the renamed keys are pairwise
distinct (in particular no asset is itself named `UNKNOWN_` + an unmapped
input id), the output is exactly the entry-for-entry renaming of the
input, with the same number of entries. -/
theorem transformAllMids_renames (st : MappingState) (resp : List (String × String)) :
    (st.isLoaded = false → transformAllMidsResponse st resp = resp)
  ∧ (st.isLoaded = true →
      (resp.map (fun p => renameKey st p.1)).Nodup →
        transformAllMidsResponse st resp
            = resp.map (fun p => (renameKey st p.1, p.2))
          ∧ (transformAllMidsResponse st resp).length = resp.length) := by
  constructor
  · intro h
    simp [transformAllMidsResponse, h]
  · intro hl hnd
    have heq : transformAllMidsResponse st resp
        = resp.foldl (fun t p => jsMapSet t (renameKey st p.1) p.2) [] := by
      simp [transformAllMidsResponse, hl]
    have hfold := foldl_jsMapSet_map (renameKey st) resp []
      (fun p _ q hq => absurd hq (List.not_mem_nil q)) hnd
    rw [heq, hfold, List.nil_append]
    exact ⟨rfl, List.length_map resp _⟩

/-- **C8 witness**: a loaded two-asset universe, one mapped key and one
unknown key. -/
theorem transformAllMids_renames_witness :
    transformAllMidsResponse (MappingState.initialized ⟨[⟨"BTC"⟩, ⟨"ETH"⟩]⟩)
        [("0", "1.5"), ("7", "2")]
      = [("BTC", "1.5"), ("UNKNOWN_7", "2")] := by
  have h := (transformAllMids_renames (MappingState.initialized ⟨[⟨"BTC"⟩, ⟨"ETH"⟩]⟩)
    [("0", "1.5"), ("7", "2")]).2 rfl (by decide)
  exact h.1

/-- **C10.** `getAssetMetadata` never indexes the universe out of bounds:
it returns `null` when the service is not loaded, when no metadata is
stored, when the id does not `parseInt` to a number, and when the parsed
index is negative or at least the universe's length; otherwise it returns
the universe element at the (in-bounds) parsed index. -/
theorem getAssetMetadata_safe (st : MappingState) (assetId : String) :
    (st.isLoaded = false → getAssetMetadata st assetId = none)
  ∧ (st.metadata = none → getAssetMetadata st assetId = none)
  ∧ (jsParseInt assetId = none → getAssetMetadata st assetId = none)
  ∧ (∀ md : MetaResponse, st.metadata = some md →
      ∀ i : Int, jsParseInt assetId = some i →
        ((i < 0 ∨ (md.univ.length : Int) ≤ i) → getAssetMetadata st assetId = none)
        ∧ (0 ≤ i → i < (md.univ.length : Int) → st.isLoaded = true →
            ∃ hlt : i.toNat < md.univ.length,
              getAssetMetadata st assetId = some (md.univ.get ⟨i.toNat, hlt⟩))) := by
  refine ⟨?_, ?_, ?_, ?_⟩
  · intro h
    rcases hmd : st.metadata with _ | md <;> simp [getAssetMetadata, h, hmd]
  · intro h
    rcases hl : st.isLoaded with _ | _ <;> simp [getAssetMetadata, h, hl]
  · intro h
    rcases hl : st.isLoaded with _ | _ <;>
      rcases hmd : st.metadata with _ | md <;> simp [getAssetMetadata, h, hl, hmd]
  · intro md hmd i hpi
    constructor
    · intro hout
      rcases hl : st.isLoaded with _ | _
      · simp [getAssetMetadata, hl, hmd]
      · simp [getAssetMetadata, hl, hmd, hpi]
        intro hc
        omega
    · intro h0 hlen hl
      have hlt : i.toNat < md.univ.length := by omega
      refine ⟨hlt, ?_⟩
      rw [getAssetMetadata, hl, hmd, hpi]
      show (if i < 0 ∨ (md.univ.length : Int) ≤ i then none else md.univ.get? i.toNat) = _
      rw [if_neg (by omega), List.get?_eq_get hlt]

/-- **C10 witness**: a loaded two-asset universe probed with an in-range
id and an out-of-range id. -/
theorem getAssetMetadata_safe_witness :
    getAssetMetadata (MappingState.initialized ⟨[⟨"BTC"⟩, ⟨"ETH"⟩]⟩) "1" = some ⟨"ETH"⟩
  ∧ getAssetMetadata (MappingState.initialized ⟨[⟨"BTC"⟩, ⟨"ETH"⟩]⟩) "5" = none := by
  constructor
  · rcases ((getAssetMetadata_safe (MappingState.initialized ⟨[⟨"BTC"⟩, ⟨"ETH"⟩]⟩) "1").2.2.2
      ⟨[⟨"BTC"⟩, ⟨"ETH"⟩]⟩ rfl 1 (by decide)).2 (by decide) (by decide) rfl with ⟨hlt, he⟩
    exact he
  · exact ((getAssetMetadata_safe (MappingState.initialized ⟨[⟨"BTC"⟩, ⟨"ETH"⟩]⟩) "5").2.2.2
      ⟨[⟨"BTC"⟩, ⟨"ETH"⟩]⟩ rfl 5 (by decide)).1 (by decide)

/-- **C3.** `executeRequest` never throws: for every endpoint
configuration, parameter map and fetch outcome it resolves either to the
success object — `success: true` with the HTTP status, status text and the
processed response data, no error — when the fetch resolved and the
response processed cleanly, or to the failure object — `success: false`
with an error record carrying the error message, its classified type and
the extracted details — when the fetch rejected, the status was not ok, or
the body failed to parse; no error propagates past this boundary. -/
theorem executeRequest_never_throws (e : EndpointConfig)
    (pm : List (String × ParamValue)) (o : FetchOutcome) :
    (∃ resp d, o = .completed resp ∧ processResponse resp = .ok d
        ∧ executeRequest e pm o
          = { success := true, status := some resp.status,
              statusText := some resp.statusText, data := some d, error := none })
  ∨ (∃ msg, executeRequest e pm o
        = { success := false, status := none, statusText := none, data := none,
            error := some { message := msg, type := classifyError msg,
                            details := { name := "Error", message := msg } } }) := by
  rcases o with msg | resp
  · exact .inr ⟨msg, rfl⟩
  · rcases hp : processResponse resp with msg | d
    · refine .inr ⟨msg, ?_⟩
      simp [executeRequest, hp, mkErrorResult]
    · refine .inl ⟨resp, d, rfl, hp, ?_⟩
      simp [executeRequest, hp]

/-- **C4.** For every POST endpoint configuration that declares parameters
and carries a (truthy, after substitution) body template, the issued
request is a POST whose JSON body is exactly the stringified template with
every placeholder substituted from the parameter map. -/
theorem prepareRequest_post_substituted_body (e : EndpointConfig)
    (pm : List (String × ParamValue)) (ps : List ParamConfig) (tpl : Json)
    (hm : e.method = "POST") (hp : e.params = some ps) (hlen : 0 < ps.length)
    (hb : e.body = some tpl)
    (ht : jsTruthyJson (replaceParametersInObject tpl pm) = true) :
    (prepareRequest e pm).method = "POST"
  ∧ (prepareRequest e pm).body
      = some (jsonStringify (replaceParametersInObject tpl pm)) := by
  unfold prepareRequest
  rw [hp, hm, hb]
  refine ⟨rfl, ?_⟩
  simp [hlen, ht]

/-- **C4 witness**: the `l2Book` endpoint with `coin = "BTC"` issues a POST
whose body is the JSON text with `type` set to `l2Book` and `coin` set to
`BTC`. -/
theorem prepareRequest_post_substituted_body_witness :
    (prepareRequest l2BookEndpoint [("coin", ParamValue.str "BTC")]).method = "POST"
  ∧ (prepareRequest l2BookEndpoint [("coin", ParamValue.str "BTC")]).body
      = some "\x7b\x22type\x22:\x22l2Book\x22,\x22coin\x22:\x22BTC\x22\x7d" := by
  have h := prepareRequest_post_substituted_body l2BookEndpoint
    [("coin", ParamValue.str "BTC")] [{ name := "coin", required := true }]
    (Json.obj (.cons "type" (.str "l2Book")
      (.cons "coin" (.str "\x7b\x7bcoin\x7d\x7d") .nil)))
    rfl rfl (by decide) rfl (by decide)
  exact ⟨h.1, h.2⟩

/-! ### WebSocket invariant lemmas -/

theorem wsInv_init : WsInv WsState.init := by
  intro i _
  right
  rfl

theorem wsInv_step (st : WsState) (ev : WsEvent) (h : WsInv st) : WsInv (wsStep st ev) := by
  cases ev with
  | openWS =>
    intro j hj
    rcases hr : st.ref with _ | r
    · simp only [wsStep, hr] at hj ⊢
      by_cases hlen : j < st.conns.length
      · rw [List.get?_append hlen]
        exact h j (by rw [hr]; simp)
      · right
        have hne : j ≠ st.conns.length := fun hc => hj (by rw [hc])
        rw [List.get?_append_right (by omega)]
        apply List.get?_eq_none.2
        simp only [List.length_singleton]
        omega
    · simp only [wsStep, hr] at hj ⊢
      have hlenc : (closeConn st.conns r).length = st.conns.length := by
        simp [closeConn]
      by_cases hlen : j < st.conns.length
      · rw [List.get?_append (by omega)]
        by_cases hjr : j = r
        · subst hjr
          left
          rw [closeConn]
          simp [List.get?_set, hlen]
        · rw [closeConn, List.get?_set_ne _ _ fun hc => hjr hc.symm]
          exact h j (by rw [hr]; simpa using fun hc => hjr hc.symm)
      · right
        rw [List.get?_append_right (by omega)]
        apply List.get?_eq_none.2
        simp only [List.length_singleton]
        have : j ≠ (closeConn st.conns r).length := fun hc => hj (by rw [hc])
        omega
  | closeWS =>
    intro j _
    rcases hr : st.ref with _ | r
    · simp only [wsStep, hr]
      exact h j (by rw [hr]; simp)
    · simp only [wsStep, hr]
      by_cases hjr : j = r
      · subst hjr
        by_cases hlen : j < st.conns.length
        · left
          rw [closeConn]
          simp [List.get?_set, hlen]
        · right
          rw [closeConn]
          apply List.get?_eq_none.2
          simp only [List.length_set]
          omega
      · rw [closeConn, List.get?_set_ne _ _ fun hc => hjr hc.symm]
        exact h j (by rw [hr]; simpa using fun hc => hjr hc.symm)
  | sockOpened i =>
    intro j hj
    by_cases hc : st.conns.get? i = some ConnStatus.connecting
    · have hri : st.ref = some i := by
        by_contra hri
        rcases h i hri with h1 | h1 <;> rw [hc] at h1 <;> simp at h1
      simp only [wsStep, if_pos hc] at hj ⊢
      have hji : j ≠ i := fun he => hj (by rw [hri, he])
      rw [List.get?_set_ne _ _ fun he => hji he.symm]
      exact h j hj
    · simp only [wsStep, if_neg hc] at hj ⊢
      exact h j hj
  | sockClosed i =>
    intro j hj
    simp only [wsStep] at hj ⊢
    by_cases hji : j = i
    · subst hji
      by_cases hlen : j < st.conns.length
      · left
        simp [List.get?_set, hlen]
      · right
        apply List.get?_eq_none.2
        simp only [List.length_set]
        omega
    · rw [List.get?_set_ne _ _ fun he => hji he.symm]
      exact h j hj
  | sockError i =>
    intro j hj
    exact h j hj

theorem wsInv_foldl (evs : List WsEvent) :
    ∀ st : WsState, WsInv st → WsInv (evs.foldl wsStep st) := by
  induction evs with
  | nil => intro st h; exact h
  | cons ev tl ih =>
    intro st h
    exact ih (wsStep st ev) (wsInv_step st ev h)

theorem wsInv_run (evs : List WsEvent) : WsInv (wsRun evs) :=
  wsInv_foldl evs WsState.init wsInv_init

/-- A status list in which every index except possibly `r` is closed (or
out of range) has at most one live element. -/
theorem filter_live_le_one (l : List ConnStatus) :
    ∀ r : Nat,
    (∀ i : Nat, i ≠ r → l.get? i = some ConnStatus.closed ∨ l.get? i = none) →
    (l.filter (fun s => s ≠ ConnStatus.closed)).length ≤ 1 := by
  induction l with
  | nil => intro r _; simp
  | cons hd tl ih =>
    intro r h
    cases r with
    | zero =>
      have htl : tl.filter (fun s => s ≠ ConnStatus.closed) = [] := by
        apply List.filter_eq_nil.2
        intro a ha
        rcases List.mem_iff_get?.1 ha with ⟨i, hi⟩
        rcases h (i + 1) (by omega) with h1 | h1 <;>
          rw [List.get?_cons_succ] at h1 <;> rw [h1] at hi
        · have := Option.some.inj hi
          simp [← this]
        · exact Option.noConfusion hi
      rw [List.filter_cons, htl]
      by_cases hh : hd = ConnStatus.closed <;> simp [hh]
    | succ s =>
      have hhd : hd = ConnStatus.closed := by
        rcases h 0 (by omega) with h1 | h1 <;> rw [List.get?_cons_zero] at h1
        · exact Option.some.inj h1
        · exact Option.noConfusion h1
      subst hhd
      rw [List.filter_cons, if_neg (by decide)]
      exact ih s fun i hi => by
        have := h (i + 1) (by omega)
        rwa [List.get?_cons_succ] at this

/-- The length of the connection list grows by exactly one on `openWS`. -/
theorem wsStep_openWS_length (st : WsState) :
    (wsStep st WsEvent.openWS).conns.length = st.conns.length + 1 := by
  rcases hr : st.ref with _ | r <;> simp [wsStep, hr, closeConn]

/-- **C5.** In every reachable state of the playground's WebSocket
handling, at most one connection is live, and every connection other than
the one `wsRef` references is closed; moreover, a further `openWS` leaves
every previously created connection closed — re-opening closes any prior
connection before the new one is created. -/
theorem ws_at_most_one_live (evs : List WsEvent) :
    liveCount (wsRun evs) ≤ 1
  ∧ (∀ i : Nat, (wsRun evs).ref ≠ some i →
      (wsRun evs).conns.get? i = some ConnStatus.closed
        ∨ (wsRun evs).conns.get? i = none)
  ∧ (∀ i : Nat, i < (wsRun evs).conns.length →
      (wsRun (evs ++ [WsEvent.openWS])).conns.get? i = some ConnStatus.closed) := by
  have hinv := wsInv_run evs
  refine ⟨?_, hinv, ?_⟩
  · rcases hr : (wsRun evs).ref with _ | r
    · refine filter_live_le_one _ (wsRun evs).conns.length fun i _ => ?_
      exact hinv i (by rw [hr]; simp)
    · refine filter_live_le_one _ r fun i hi => ?_
      exact hinv i (by rw [hr]; exact fun hc => hi (Option.some.inj hc).symm)
  · intro i hlen
    have hrun : wsRun (evs ++ [WsEvent.openWS]) = wsStep (wsRun evs) WsEvent.openWS := by
      rw [wsRun, List.foldl_append]
      rfl
    have hinv2 := wsInv_run (evs ++ [WsEvent.openWS])
    rw [hrun] at hinv2
    rw [hrun]
    have href : (wsStep (wsRun evs) WsEvent.openWS).ref ≠ some i := by
      rcases hr : (wsRun evs).ref with _ | r <;>
        simp only [wsStep, hr] <;> intro hc <;>
          have := Option.some.inj hc
      · omega
      · simp [closeConn] at this
        omega
    rcases hinv2 i href with h1 | h1
    · exact h1
    · exfalso
      have := List.get?_eq_none.1 h1
      rw [wsStep_openWS_length] at this
      omega
/-! ### Placeholder-substitution lemmas -/

theorem replaceCharsF_nil (pm : List (String × ParamValue)) :
    ∀ fuel, replaceCharsF pm fuel [] = [] := by
  intro fuel
  cases fuel <;> rfl

theorem dropWhile_length_le (p : Char → Bool) :
    ∀ l : List Char, (l.dropWhile p).length ≤ l.length := by
  intro l
  induction l with
  | nil => simp
  | cons c t ih =>
    rw [List.dropWhile_cons]
    split
    · exact Nat.le_succ_of_le ih
    · exact Nat.le_refl _

theorem matchPlaceholder_some_length {cs : List Char} {nm : String} {rest3 : List Char}
    (h : matchPlaceholder cs = some (nm, rest3)) : rest3.length + 1 ≤ cs.length := by
  rcases cs with _ | ⟨c1, _ | ⟨c2, rest2⟩⟩
  · simp [matchPlaceholder] at h
  · simp [matchPlaceholder] at h
  · by_cases hb : c1 = '{' ∧ c2 = '{'
    · obtain ⟨hb1, hb2⟩ := hb
      subst hb1
      subst hb2
      rcases hd : rest2.dropWhile wordChar with _ | ⟨d1, _ | ⟨d2, r3⟩⟩
      · simp [matchPlaceholder, hd] at h
      · simp [matchPlaceholder, hd] at h
      · simp only [matchPlaceholder, hd, and_true, true_and, if_true, eq_self_iff_true,
          Option.ite_none_right_eq_some, Option.some.injEq, Prod.mk.injEq] at h
        obtain ⟨h1, h2, hr3⟩ := h
        subst hr3
        have hlen := dropWhile_length_le wordChar rest2
        rw [hd] at hlen
        simp only [List.length_cons] at hlen ⊢
        omega
    · simp [matchPlaceholder, hb] at h

theorem matchPlaceholder_none_head {c : Char} (hc : c ≠ '{') (rest : List Char) :
    matchPlaceholder (c :: rest) = none := by
  rcases rest with _ | ⟨c2, rest2⟩
  · rfl
  · rw [matchPlaceholder, if_neg fun hb => hc hb.1]

/-- The fuel of the scanner is irrelevant above the input length. -/
theorem replaceCharsF_fuel (pm : List (String × ParamValue)) :
    ∀ f1 : Nat, ∀ cs : List Char, ∀ f2 : Nat, cs.length ≤ f1 → cs.length ≤ f2 →
      replaceCharsF pm f1 cs = replaceCharsF pm f2 cs := by
  intro f1
  induction f1 with
  | zero =>
    intro cs f2 h1 _
    have : cs = [] := List.length_eq_zero.1 (by omega)
    subst this
    rw [replaceCharsF_nil, replaceCharsF_nil]
  | succ g ih =>
    intro cs f2 h1 h2
    rcases cs with _ | ⟨c, rest⟩
    · rw [replaceCharsF_nil, replaceCharsF_nil]
    · rcases f2 with _ | g2
      · simp at h2
      · rw [replaceCharsF, replaceCharsF]
        rcases hm : matchPlaceholder (c :: rest) with _ | ⟨nm, rest3⟩
        · simp only [List.length_cons] at h1 h2
          show c :: replaceCharsF pm g rest = c :: replaceCharsF pm g2 rest
          rw [ih rest g2 (by omega) (by omega)]
        · have hlen := matchPlaceholder_some_length hm
          simp only [List.length_cons] at hlen h1 h2
          show placeholderReplacement pm nm ++ replaceCharsF pm g rest3
              = placeholderReplacement pm nm ++ replaceCharsF pm g2 rest3
          rw [ih rest3 g2 (by omega) (by omega)]

/-- The scanner copies a placeholder-free prefix verbatim. -/
theorem replaceCharsF_leading (pm : List (String × ParamValue)) :
    ∀ p : List Char, (∀ c ∈ p, c ≠ '{') →
      ∀ t : List Char, ∀ fuel : Nat, (p ++ t).length ≤ fuel →
        replaceCharsF pm fuel (p ++ t) = p ++ replaceCharsF pm (t.length + 1) t := by
  intro p
  induction p with
  | nil =>
    intro _ t fuel hf
    rw [List.nil_append, List.nil_append]
    exact replaceCharsF_fuel pm fuel t (t.length + 1) (by simpa using hf) (by omega)
  | cons q p' ih =>
    intro hp t fuel hf
    rcases fuel with _ | g
    · simp at hf
    · rw [List.cons_append, replaceCharsF,
        matchPlaceholder_none_head (hp q (List.mem_cons_self q p')) (p' ++ t)]
      simp only [List.length_cons, List.length_append] at hf
      show q :: replaceCharsF pm g (p' ++ t) = q :: p' ++ replaceCharsF pm (t.length + 1) t
      rw [ih (fun c hc => hp c (List.mem_cons_of_mem q hc)) t g
        (by simp only [List.length_append]; omega)]
      rfl

theorem takeWhile_all_append (p : Char → Bool) :
    ∀ l1 : List Char, (∀ c ∈ l1, p c = true) →
      ∀ c2 : Char, p c2 = false → ∀ l2 : List Char,
        (l1 ++ c2 :: l2).takeWhile p = l1 ∧ (l1 ++ c2 :: l2).dropWhile p = c2 :: l2 := by
  intro l1
  induction l1 with
  | nil =>
    intro _ c2 hc2 l2
    rw [List.nil_append, List.takeWhile_cons, List.dropWhile_cons, hc2]
    exact ⟨rfl, rfl⟩
  | cons c t ih =>
    intro h1 c2 hc2 l2
    have hc := h1 c (List.mem_cons_self c t)
    obtain ⟨ht, hd⟩ := ih (fun x hx => h1 x (List.mem_cons_of_mem c hx)) c2 hc2 l2
    rw [List.cons_append, List.takeWhile_cons, List.dropWhile_cons, hc]
    constructor
    · simp only [if_true]
      rw [ht]
    · simp only [if_true]
      rw [hd]

/-- The scanner recognises a well-formed placeholder at the head. -/
theorem matchPlaceholder_braces (nmL : List Char) (hnm : nmL ≠ [])
    (hw : ∀ c ∈ nmL, wordChar c = true) (s : List Char) :
    matchPlaceholder ('{' :: '{' :: (nmL ++ '}' :: '}' :: s)) = some (⟨nmL⟩, s) := by
  rcases takeWhile_all_append wordChar nmL hw '}' (by decide) ('}' :: s) with ⟨ht, hd⟩
  rw [matchPlaceholder, if_pos ⟨rfl, rfl⟩, hd, ht]
  show (if nmL ≠ [] ∧ ('}' : Char) = '}' ∧ ('}' : Char) = '}' then
      some ((⟨nmL⟩ : String), s) else none) = some (⟨nmL⟩, s)
  rw [if_pos ⟨hnm, rfl, rfl⟩]

/-- A well-formed placeholder at the head of the input is replaced by the
callback result, and scanning continues after it. -/
theorem replaceCharsF_placeholder (pm : List (String × ParamValue)) (nmL : List Char)
    (hnm : nmL ≠ []) (hw : ∀ c ∈ nmL, wordChar c = true) (s : List Char) (fuel : Nat)
    (hf : s.length ≤ fuel) :
    replaceCharsF pm (fuel + 1) ('{' :: '{' :: (nmL ++ '}' :: '}' :: s))
      = placeholderReplacement pm ⟨nmL⟩ ++ replaceCharsF pm (s.length + 1) s := by
  rw [replaceCharsF, matchPlaceholder_braces nmL hnm hw s]
  show placeholderReplacement pm ⟨nmL⟩ ++ replaceCharsF pm fuel s = _
  rw [replaceCharsF_fuel pm fuel s (s.length + 1) hf (by omega)]

/-- **C9.** `replaceParametersInString` replaces each `\x7b\x7bname\x7d\x7d`
occurrence (word-character name) by the string form of the parameter's
value when present and non-null, and leaves the placeholder verbatim —
never an empty string, never an error — when the parameter is absent or
null (`placeholderReplacement` is exactly that callback result); and
`replaceParametersInObject` applies this to every string leaf while
passing null, number and boolean leaves through unchanged and preserving
array/object structure (keys untouched). -/
theorem replaceParameters_substitution (pm : List (String × ParamValue))
    (p nmL s : List Char) (hp : ∀ c ∈ p, c ≠ '{') (hnm : nmL ≠ [])
    (hw : ∀ c ∈ nmL, wordChar c = true) :
    (replaceParametersInString ⟨p ++ '{' :: '{' :: (nmL ++ '}' :: '}' :: s)⟩ pm
        = ⟨p⟩ ++ ⟨placeholderReplacement pm ⟨nmL⟩⟩ ++ replaceParametersInString ⟨s⟩ pm)
  ∧ (paramLookup pm ⟨nmL⟩ = none →
      placeholderReplacement pm ⟨nmL⟩ = '{' :: '{' :: (nmL ++ ['}', '}']))
  ∧ (∀ str, replaceParametersInObject (Json.str str) pm
      = Json.str (replaceParametersInString str pm))
  ∧ (∀ n : Int, replaceParametersInObject (Json.num n) pm = Json.num n)
  ∧ (∀ b : Bool, replaceParametersInObject (Json.bool b) pm = Json.bool b)
  ∧ (replaceParametersInObject Json.null pm = Json.null)
  ∧ (∀ es, replaceParametersInObject (Json.arr es) pm
      = Json.arr (replaceParamsInElems es pm))
  ∧ (∀ fs, replaceParametersInObject (Json.obj fs) pm
      = Json.obj (replaceParamsInFields fs pm))
  ∧ (∀ hd tl, replaceParamsInElems (JsonList.cons hd tl) pm
      = JsonList.cons (replaceParametersInObject hd pm) (replaceParamsInElems tl pm))
  ∧ (∀ k v tl, replaceParamsInFields (JsonFields.cons k v tl) pm
      = JsonFields.cons k (replaceParametersInObject v pm) (replaceParamsInFields tl pm)) := by
  refine ⟨?_, fun hnone => by rw [placeholderReplacement, hnone], fun str => rfl,
    fun n => rfl, fun b => rfl, rfl, fun es => rfl, fun fs => rfl,
    fun hd tl => rfl, fun k v tl => rfl⟩
  show (⟨replaceCharsF pm ((p ++ '{' :: '{' :: (nmL ++ '}' :: '}' :: s)).length + 1)
      (p ++ '{' :: '{' :: (nmL ++ '}' :: '}' :: s))⟩ : String) = _
  rw [replaceCharsF_leading pm p hp ('{' :: '{' :: (nmL ++ '}' :: '}' :: s))
    ((p ++ '{' :: '{' :: (nmL ++ '}' :: '}' :: s)).length + 1) (by omega)]
  rw [show ('{' :: '{' :: (nmL ++ '}' :: '}' :: s)).length
      = ('{' :: (nmL ++ '}' :: '}' :: s)).length + 1 from rfl]
  rw [replaceCharsF_placeholder pm nmL hnm hw s _ (by simp; omega)]
  exact congrArg String.mk (by rw [List.append_assoc])

/-- **C9 witness**: a template with a literal prefix, a bound parameter
and an unbound one. -/
theorem replaceParameters_substitution_witness :
    replaceParametersInString "c=\x7b\x7bcoin\x7d\x7d!" [("coin", ParamValue.str "BTC")]
        = "c=BTC!"
  ∧ replaceParametersInString "u=\x7b\x7buser\x7d\x7d" [("coin", ParamValue.str "BTC")]
        = "u=\x7b\x7buser\x7d\x7d" := by
  constructor
  · have h := (replaceParameters_substitution [("coin", ParamValue.str "BTC")]
      ['c', '='] ['c', 'o', 'i', 'n'] ['!'] (by decide) (by decide) (by decide)).1
    exact h
  · have h := (replaceParameters_substitution [("coin", ParamValue.str "BTC")]
      ['u', '='] ['u', 's', 'e', 'r'] [] (by decide) (by decide) (by decide)).1
    exact h

/-! ### JSON printer/parser round-trip: character-class lemmas -/

theorem skipWs_cons_not_ws {c : Char}
    (h : (c == ' ' || c == '\n' || c == '\r' || c == '\t') = false) (t : List Char) :
    skipWs (c :: t) = c :: t := by
  rw [skipWs, if_neg (by simp [h])]

theorem isDigit_not_special {c : Char} (h : c.isDigit = true) :
    (c == ' ' || c == '\n' || c == '\r' || c == '\t') = false
      ∧ c ≠ ']' ∧ c ≠ '}' ∧ c ≠ ',' ∧ c ≠ 'n' ∧ c ≠ 't' ∧ c ≠ 'f'
      ∧ c ≠ '"' ∧ c ≠ '[' ∧ c ≠ '{' ∧ c ≠ '-' := by
  refine ⟨?_, ?_, ?_, ?_, ?_, ?_, ?_, ?_, ?_, ?_, ?_⟩ <;>
    first
      | (refine fun hc => ?_
         rw [hc] at h
         exact absurd h (by decide))
      | (have h1 : c ≠ ' ' := fun hc => by rw [hc] at h; exact absurd h (by decide)
         have h2 : c ≠ '\n' := fun hc => by rw [hc] at h; exact absurd h (by decide)
         have h3 : c ≠ '\r' := fun hc => by rw [hc] at h; exact absurd h (by decide)
         have h4 : c ≠ '\t' := fun hc => by rw [hc] at h; exact absurd h (by decide)
         simp [beq_eq_false_iff_ne, h1, h2, h3, h4])

theorem intToChars_ne_nil (n : Int) : intToChars n ≠ [] := by
  rw [intToChars]
  split
  · simp
  · exact natToChars_ne_nil n.natAbs

/-- The first character of a printed JSON value is not whitespace and not
one of the closing delimiters. -/
theorem printJson_head (v : Json) :
    ∃ c t, printJson v = c :: t
      ∧ (c == ' ' || c == '\n' || c == '\r' || c == '\t') = false
      ∧ c ≠ ']' ∧ c ≠ '}' := by
  cases v with
  | null => exact ⟨'n', _, rfl, by decide, by decide, by decide⟩
  | bool b =>
    cases b
    · exact ⟨'f', _, rfl, by decide, by decide, by decide⟩
    · exact ⟨'t', _, rfl, by decide, by decide, by decide⟩
  | num n =>
    by_cases hn : n < 0
    · refine ⟨'-', natToChars n.natAbs, ?_, by decide, by decide, by decide⟩
      rw [printJson, intToChars, if_pos hn]
    · rcases hh : natToChars n.natAbs with _ | ⟨d, t⟩
      · exact absurd hh (natToChars_ne_nil n.natAbs)
      · have hd : d.isDigit = true := by
          apply natToChars_digits n.natAbs
          rw [hh]
          exact List.mem_cons_self d t
        obtain ⟨hws, _, _, _, _, _, _, _, _, _, _⟩ := isDigit_not_special hd
        refine ⟨d, t, ?_, hws, (isDigit_not_special hd).2.1, (isDigit_not_special hd).2.2.1⟩
        rw [printJson, intToChars, if_neg hn, hh]
  | str s => refine ⟨'"', _, rfl, by decide, by decide, by decide⟩
  | arr es => refine ⟨'[', _, rfl, by decide, by decide, by decide⟩
  | obj fs => refine ⟨'{', _, rfl, by decide, by decide, by decide⟩

theorem skipWs_printJson (v : Json) (r : List Char) :
    skipWs (printJson v ++ r) = printJson v ++ r := by
  obtain ⟨c, t, he, hws, _, _⟩ := printJson_head v
  rw [he, List.cons_append, skipWs_cons_not_ws hws]

theorem stripLeading_printJson_rbracket (v : Json) (r : List Char) :
    stripLeading ']' (printJson v ++ r) = none := by
  obtain ⟨c, t, he, _, hc, _⟩ := printJson_head v
  rw [he, List.cons_append, stripLeading, if_neg hc]

theorem stripLeading_printJson_rbrace (v : Json) (r : List Char) :
    stripLeading '}' (printJson v ++ r) = none := by
  obtain ⟨c, t, he, _, _, hc⟩ := printJson_head v
  rw [he, List.cons_append, stripLeading, if_neg hc]

/-! ### JSON string escaping round-trip -/

theorem hexVal_hexDigit {n : Nat} (h : n < 16) : hexVal (hexDigit n) = some n := by
  interval_cases n <;> decide

/-- Parsing one escaped character undoes `escapeChar`. -/
theorem parseStrAux_escapeChar (c : Char) (acc rest : List Char) :
    parseStrAux acc (escapeChar c ++ rest) = parseStrAux (c :: acc) rest := by
  by_cases h1 : c = '"'
  · subst h1; rfl
  · by_cases h2 : c = '\\'
    · subst h2; rfl
    · by_cases h3 : c = '\x08'
      · subst h3; rfl
      · by_cases h4 : c = '\x0c'
        · subst h4; rfl
        · by_cases h5 : c = '\n'
          · subst h5; rfl
          · by_cases h6 : c = '\r'
            · subst h6; rfl
            · by_cases h7 : c = '\t'
              · subst h7; rfl
              · by_cases h8 : c.toNat < 32
                · rw [escapeChar, if_neg h1, if_neg h2, if_neg h3, if_neg h4, if_neg h5,
                    if_neg h6, if_neg h7, if_pos h8]
                  show parseStrAux acc
                    ('\\' :: 'u' :: '0' :: '0' :: hexDigit (c.toNat / 16)
                      :: hexDigit (c.toNat % 16) :: rest) = _
                  rw [parseStrAux, if_neg (by decide), if_pos rfl]
                  have e3 := hexVal_hexDigit (show c.toNat / 16 < 16 by omega)
                  have e4 := hexVal_hexDigit (show c.toNat % 16 < 16 by omega)
                  simp only [show hexVal '0' = some 0 from rfl, e3, e4]
                  rw [show ((0 * 16 + 0) * 16 + c.toNat / 16) * 16 + c.toNat % 16
                      = c.toNat from by omega]
                  rw [Char.ofNat_toNat]
                · rw [escapeChar, if_neg h1, if_neg h2, if_neg h3, if_neg h4, if_neg h5,
                    if_neg h6, if_neg h7, if_neg h8]
                  show parseStrAux acc (c :: rest) = _
                  rw [parseStrAux.eq_def]
                  simp [h1, h2]

/-- Parsing an escaped string body up to the closing quote recovers the
original characters. -/
theorem parseStrAux_escaped (sdata : List Char) :
    ∀ acc rest, parseStrAux acc (escapeChars sdata ++ '"' :: rest)
      = some (⟨acc.reverse ++ sdata⟩, rest) := by
  induction sdata with
  | nil =>
    intro acc rest
    rw [escapeChars, List.nil_append, List.append_nil, parseStrAux.eq_def]
    rfl
  | cons c t ih =>
    intro acc rest
    rw [escapeChars, List.append_assoc, parseStrAux_escapeChar, ih (c :: acc) rest,
      List.reverse_cons, List.append_assoc, List.singleton_append]

/-! ### JSON number round-trip -/

theorem takeDigits_all (ds : List Char) (h : ∀ c ∈ ds, c.isDigit = true) :
    ∀ rest, notDigitHead rest → takeDigits (ds ++ rest) = (ds, rest) := by
  induction ds with
  | nil =>
    intro rest hr
    rcases rest with _ | ⟨r, t⟩
    · rfl
    · rw [List.nil_append, takeDigits.eq_def]
      have hrd : r.isDigit = false := hr
      simp [hrd]
  | cons c t ih =>
    intro rest hr
    have hc := h c (List.mem_cons_self c t)
    rw [List.cons_append, takeDigits.eq_def]
    simp only [hc, if_true]
    rw [ih (fun x hx => h x (List.mem_cons_of_mem c hx)) rest hr]

theorem parseNumber_print (n : Int) (rest : List Char) (hr : notDigitHead rest) :
    parseNumber (intToChars n ++ rest) = some (n, rest) := by
  have htd := takeDigits_all (natToChars n.natAbs) (natToChars_digits _) rest hr
  by_cases hn : n < 0
  · rw [intToChars, if_pos hn, List.cons_append, parseNumber.eq_def]
    simp only [if_pos rfl]
    rw [htd]
    rcases hh : natToChars n.natAbs with _ | ⟨d, t⟩
    · exact absurd hh (natToChars_ne_nil _)
    · show some (-(charsToNat (d :: t) : Int), rest) = some (n, rest)
      rw [← hh, charsToNat_natToChars]
      have hna : ((n.natAbs : Nat) : Int) = -n := by omega
      rw [hna, neg_neg]
  · rw [intToChars, if_neg hn]
    rcases hh : natToChars n.natAbs with _ | ⟨d, t⟩
    · exact absurd hh (natToChars_ne_nil _)
    · have hd : d.isDigit = true := by
        apply natToChars_digits n.natAbs
        rw [hh]
        exact List.mem_cons_self d t
      have hdm : d ≠ '-' := (isDigit_not_special hd).2.2.2.2.2.2.2.2.2.2
      rw [hh] at htd
      rw [List.cons_append] at htd
      rw [List.cons_append, parseNumber.eq_def]
      simp only [hdm, if_false]
      rw [htd]
      show some ((charsToNat (d :: t) : Int), rest) = some (n, rest)
      rw [← hh, charsToNat_natToChars]
      have hna : ((n.natAbs : Nat) : Int) = n := by omega
      rw [hna]

/-! ### JSON parse of printed values, and the C7 round-trip -/


theorem parseJson_quote (g : Nat) (cs : List Char) :
    parseJson (g + 1) ('"' :: cs)
      = (parseStrAux [] cs).map (fun p => (Json.str p.1, p.2)) := rfl

theorem parseJson_lbracket (g : Nat) (cs : List Char) :
    parseJson (g + 1) ('[' :: cs)
      = (match stripLeading ']' (skipWs cs) with
         | some rest2 => some (Json.arr JsonList.nil, rest2)
         | none => (parseElems g (skipWs cs)).map (fun p => (Json.arr p.1, p.2))) := rfl

theorem parseJson_lbrace (g : Nat) (cs : List Char) :
    parseJson (g + 1) ('{' :: cs)
      = (match stripLeading '}' (skipWs cs) with
         | some rest2 => some (Json.obj JsonFields.nil, rest2)
         | none => (parseFields g (skipWs cs)).map (fun p => (Json.obj p.1, p.2))) := rfl

theorem parseJson_number_head (g : Nat) (c : Char) (cs : List Char)
    (hws : (c == ' ' || c == '\n' || c == '\r' || c == '\t') = false)
    (h1 : c ≠ 'n') (h2 : c ≠ 't') (h3 : c ≠ 'f') (h4 : c ≠ '"') (h5 : c ≠ '[')
    (h6 : c ≠ '{') :
    parseJson (g + 1) (c :: cs)
      = (parseNumber (c :: cs)).map (fun p => (Json.num p.1, p.2)) := by
  rw [parseJson.eq_def]
  simp only [skipWs_cons_not_ws hws, h1, h2, h3, h4, h5, h6, if_false]

theorem parseJson_num_print (g : Nat) (n : Int) (rest : List Char)
    (hr : notDigitHead rest) :
    parseJson (g + 1) (printJson (Json.num n) ++ rest) = some (Json.num n, rest) := by
  have hpn := parseNumber_print n rest hr
  by_cases hn : n < 0
  · rw [show printJson (Json.num n) ++ rest = '-' :: (natToChars n.natAbs ++ rest) from by
      simp only [printJson]
      rw [intToChars, if_pos hn, List.cons_append]]
    rw [parseJson_number_head g '-' (natToChars n.natAbs ++ rest) (by decide) (by decide)
      (by decide) (by decide) (by decide) (by decide) (by decide)]
    rw [show ('-' : Char) :: (natToChars n.natAbs ++ rest) = intToChars n ++ rest from by
      rw [intToChars, if_pos hn, List.cons_append]]
    rw [hpn]
    rfl
  · rcases hh : natToChars n.natAbs with _ | ⟨d, t⟩
    · exact absurd hh (natToChars_ne_nil _)
    · have hd : d.isDigit = true := by
        apply natToChars_digits n.natAbs
        rw [hh]
        exact List.mem_cons_self d t
      obtain ⟨hws, _, _, _, h5, h6, h7, h8, h9, h10, _⟩ := isDigit_not_special hd
      rw [show printJson (Json.num n) ++ rest = d :: (t ++ rest) from by
        simp only [printJson]
        rw [intToChars, if_neg hn, hh, List.cons_append]]
      rw [parseJson_number_head g d (t ++ rest) hws h5 h6 h7 h8 h9 h10]
      rw [show d :: (t ++ rest) = intToChars n ++ rest from by
        rw [intToChars, if_neg hn, hh, List.cons_append]]
      rw [hpn]
      rfl

theorem parseJson_str_print (g : Nat) (s : String) (rest : List Char) :
    parseJson (g + 1) (printJson (Json.str s) ++ rest) = some (Json.str s, rest) := by
  rw [show printJson (Json.str s) ++ rest
      = '"' :: (escapeChars s.data ++ '"' :: rest) from by
    simp only [printJson, List.cons_append, List.append_assoc, List.singleton_append,
      List.nil_append]]
  rw [parseJson_quote, parseStrAux_escaped s.data [] rest]
  rfl

theorem parseElems_succ (g : Nat) (cs : List Char) :
    parseElems (g + 1) cs
      = match parseJson g cs with
        | none => none
        | some (v, rest) =>
          match skipWs rest with
          | [] => none
          | c :: rest2 =>
            if c = ',' then (parseElems g rest2).map (fun p => (JsonList.cons v p.1, p.2))
            else if c = ']' then some (JsonList.cons v JsonList.nil, rest2)
            else none := rfl

theorem parseFields_quote (g : Nat) (cs : List Char) :
    parseFields (g + 1) ('"' :: cs)
      = match parseStrAux [] cs with
        | none => none
        | some (k, rest2) =>
          match stripLeading ':' (skipWs rest2) with
          | none => none
          | some rest3 =>
            match parseJson g rest3 with
            | none => none
            | some (v, rest4) =>
              match skipWs rest4 with
              | [] => none
              | c :: rest5 =>
                if c = ',' then
                  (parseFields g rest5).map (fun p => (JsonFields.cons k v p.1, p.2))
                else if c = '}' then some (JsonFields.cons k v JsonFields.nil, rest5)
                else none := rfl

theorem parseFields_key (g : Nat) (k : String) (tail : List Char) :
    parseFields (g + 1) ('"' :: (escapeChars k.data ++ '"' :: ':' :: tail))
      = match parseJson g tail with
        | none => none
        | some (v, rest4) =>
          match skipWs rest4 with
          | [] => none
          | c :: rest5 =>
            if c = ',' then
              (parseFields g rest5).map (fun p => (JsonFields.cons k v p.1, p.2))
            else if c = '}' then some (JsonFields.cons k v JsonFields.nil, rest5)
            else none := by
  rw [parseFields_quote, parseStrAux_escaped k.data [] (':' :: tail)]
  rfl

theorem notDigitHead_elemsRest (tl : JsonList) (rest : List Char) :
    notDigitHead (printElemsRest tl ++ ']' :: rest) := by
  cases tl <;> exact rfl

theorem notDigitHead_fieldsRest (tl : JsonFields) (rest : List Char) :
    notDigitHead (printFieldsRest tl ++ '}' :: rest) := by
  cases tl <;> exact rfl

theorem fuelJson_pos (v : Json) : 1 ≤ fuelJson v := by
  cases v <;> simp only [fuelJson] <;> omega

theorem fuelElems_pos (es : JsonList) : 1 ≤ fuelElems es := by
  cases es <;> simp only [fuelElems] <;> omega

theorem fuelFields_pos (fs : JsonFields) : 1 ≤ fuelFields fs := by
  cases fs <;> simp only [fuelFields] <;> omega

theorem parse_print_roundtrip (fuel : Nat) :
    (∀ v rest, fuelJson v ≤ fuel → notDigitHead rest →
      parseJson fuel (printJson v ++ rest) = some (v, rest))
    ∧ (∀ es rest, es ≠ JsonList.nil → fuelElems es ≤ fuel →
      parseElems fuel (printElems es ++ ']' :: rest) = some (es, rest))
    ∧ (∀ fs rest, fs ≠ JsonFields.nil → fuelFields fs ≤ fuel →
      parseFields fuel (printFields fs ++ '}' :: rest) = some (fs, rest)) := by
  induction fuel with
  | zero =>
    refine ⟨fun v rest hf _ => ?_, fun es rest _ hf => ?_, fun fs rest _ hf => ?_⟩
    · exact absurd (le_trans (fuelJson_pos v) hf) (by decide)
    · exact absurd (le_trans (fuelElems_pos es) hf) (by decide)
    · exact absurd (le_trans (fuelFields_pos fs) hf) (by decide)
  | succ g ih =>
    obtain ⟨ihV, ihE, ihF⟩ := ih
    refine ⟨?_, ?_, ?_⟩
    · intro v rest hfuel hrest
      cases v with
      | null => rfl
      | bool b => cases b <;> rfl
      | num n => exact parseJson_num_print g n rest hrest
      | str s => exact parseJson_str_print g s rest
      | arr es =>
        cases es with
        | nil => rfl
        | cons hd tl =>
          simp only [fuelJson] at hfuel
          rw [show printJson (Json.arr (JsonList.cons hd tl)) ++ rest
              = '[' :: (printJson hd ++ (printElemsRest tl ++ ']' :: rest)) from by
            simp only [printJson, printElems, List.cons_append, List.append_assoc,
              List.singleton_append, List.nil_append]]
          rw [parseJson_lbracket, skipWs_printJson, stripLeading_printJson_rbracket]
          show (parseElems g (printJson hd ++ (printElemsRest tl ++ ']' :: rest))).map
              (fun p => (Json.arr p.1, p.2)) = some (Json.arr (JsonList.cons hd tl), rest)
          rw [show printJson hd ++ (printElemsRest tl ++ ']' :: rest)
              = printElems (JsonList.cons hd tl) ++ ']' :: rest from by
            simp only [printElems, List.append_assoc]]
          rw [ihE (JsonList.cons hd tl) rest (fun h => JsonList.noConfusion h) (by omega)]
          rfl
      | obj fs =>
        cases fs with
        | nil => rfl
        | cons k v tl =>
          simp only [fuelJson] at hfuel
          rw [show printJson (Json.obj (JsonFields.cons k v tl)) ++ rest
              = '{' :: (printFields (JsonFields.cons k v tl) ++ '}' :: rest) from by
            simp only [printJson, List.cons_append, List.append_assoc,
              List.singleton_append, List.nil_append]]
          rw [parseJson_lbrace]
          show (parseFields g (printFields (JsonFields.cons k v tl) ++ '}' :: rest)).map
              (fun p => (Json.obj p.1, p.2))
            = some (Json.obj (JsonFields.cons k v tl), rest)
          rw [ihF (JsonFields.cons k v tl) rest (fun h => JsonFields.noConfusion h)
            (by omega)]
          rfl
    · intro es rest hne hfuel
      cases es with
      | nil => exact absurd rfl hne
      | cons hd tl =>
        simp only [fuelElems] at hfuel
        rw [show printElems (JsonList.cons hd tl) ++ ']' :: rest
            = printJson hd ++ (printElemsRest tl ++ ']' :: rest) from by
          simp only [printElems, List.append_assoc]]
        rw [parseElems_succ, ihV hd (printElemsRest tl ++ ']' :: rest) (by omega)
          (notDigitHead_elemsRest tl rest)]
        cases tl with
        | nil => rfl
        | cons h2 t2 =>
          show (parseElems g (printElems (JsonList.cons h2 t2) ++ ']' :: rest)).map
              (fun p => (JsonList.cons hd p.1, p.2))
            = some (JsonList.cons hd (JsonList.cons h2 t2), rest)
          rw [ihE (JsonList.cons h2 t2) rest (fun h => JsonList.noConfusion h) (by omega)]
          rfl
    · intro fs rest hne hfuel
      cases fs with
      | nil => exact absurd rfl hne
      | cons k v tl =>
        simp only [fuelFields] at hfuel
        rw [show printFields (JsonFields.cons k v tl) ++ '}' :: rest
            = '"' :: (escapeChars k.data ++ '"' :: ':' ::
                (printJson v ++ (printFieldsRest tl ++ '}' :: rest))) from by
          simp only [printFields, List.cons_append, List.append_assoc]]
        rw [parseFields_key, ihV v (printFieldsRest tl ++ '}' :: rest) (by omega)
          (notDigitHead_fieldsRest tl rest)]
        cases tl with
        | nil => rfl
        | cons k2 v2 t2 =>
          show (parseFields g (printFields (JsonFields.cons k2 v2 t2) ++ '}' :: rest)).map
              (fun p => (JsonFields.cons k v p.1, p.2))
            = some (JsonFields.cons k v (JsonFields.cons k2 v2 t2), rest)
          rw [ihF (JsonFields.cons k2 v2 t2) rest (fun h => JsonFields.noConfusion h)
            (by omega)]
          rfl

theorem printJson_length_pos (v : Json) : 1 ≤ (printJson v).length := by
  obtain ⟨c, t, he, _, _, _⟩ := printJson_head v
  rw [he, List.length_cons]
  omega

theorem printElems_le_rest (es : JsonList) :
    (printElems es).length ≤ (printElemsRest es).length := by
  cases es with
  | nil => exact le_refl _
  | cons hd tl =>
    simp only [printElems, printElemsRest, List.length_cons, List.length_append]
    omega

theorem printFields_le_rest (fs : JsonFields) :
    (printFields fs).length ≤ (printFieldsRest fs).length := by
  cases fs with
  | nil => exact le_refl _
  | cons k v tl =>
    simp only [printFields, printFieldsRest, List.length_cons, List.length_append]
    omega

theorem fuelJson_le_print (v : Json) : fuelJson v ≤ (printJson v).length + 1 := by
  refine @Json.rec (fun w => fuelJson w ≤ (printJson w).length + 1)
    (fun es => fuelElems es ≤ (printElems es).length + 2)
    (fun fs => fuelFields fs ≤ (printFields fs).length + 2)
    ?_ ?_ ?_ ?_ ?_ ?_ ?_ ?_ ?_ ?_ v
  · decide
  · intro b
    cases b <;> decide
  · intro n
    simp only [fuelJson]
    omega
  · intro s
    simp only [fuelJson]
    omega
  · intro es ih
    simp only [fuelJson, printJson, List.length_cons, List.length_append,
      List.length_singleton] at *
    omega
  · intro fs ih
    simp only [fuelJson, printJson, List.length_cons, List.length_append,
      List.length_singleton] at *
    omega
  · decide
  · intro hd tl ih1 ih2
    have h3 := printElems_le_rest tl
    have h4 := printJson_length_pos hd
    simp only [fuelElems, printElems, List.length_append] at *
    omega
  · decide
  · intro k w tl ih1 ih2
    have h3 := printFields_le_rest tl
    simp only [fuelFields, printFields, List.length_append, List.length_cons] at *
    omega

theorem jsonParse_jsonStringify (v : Json) : jsonParse (jsonStringify v) = some v := by
  have hrt := (parse_print_roundtrip ((printJson v).length + 1)).1 v []
    (fuelJson_le_print v) trivial
  rw [List.append_nil] at hrt
  show (match parseJson ((printJson v).length + 1) (printJson v) with
    | some (w, rest) => if skipWs rest = [] then some w else none
    | none => none) = some v
  rw [hrt]
  rfl

theorem jsonStringify_ne_empty (v : Json) : jsonStringify v ≠ "" := by
  obtain ⟨c, t, he, _, _, _⟩ := printJson_head v
  intro hcon
  have hd : printJson v = [] := congrArg String.data hcon
  rw [he] at hd
  exact List.noConfusion hd

/-- **C7.** The localStorage-backed `useLocalState` hook round-trips the
persisted form state: initialising from a store to which the hook wrote
`JSON.stringify` of a value under a key yields that value back for the
same key, and when the stored entry is absent, empty (falsy) or not
valid JSON the hook falls back to the supplied initial value. The
statement is uniform in the key, so it covers the playground's
selected-endpoint key and the per-endpoint parameter keys. -/
theorem localStorage_hook_roundtrip (store : List (String × String))
    (key : String) (initial v : Json) :
    useLocalStateInit (writeLocalState store key v) key initial = v
    ∧ (jsMapGet store key = none → useLocalStateInit store key initial = initial)
    ∧ (∀ raw, jsMapGet store key = some raw → raw = "" ∨ jsonParse raw = none →
        useLocalStateInit store key initial = initial) := by
  refine ⟨?_, ?_, ?_⟩
  · show (match jsMapGet (jsMapSet store key (jsonStringify v)) key with
      | some raw => if raw = "" then initial else
          (match jsonParse raw with | some w => w | none => initial)
      | none => initial) = v
    rw [jsMapGet_jsMapSet_self]
    show (if jsonStringify v = "" then initial else
        (match jsonParse (jsonStringify v) with | some w => w | none => initial)) = v
    rw [if_neg (jsonStringify_ne_empty v), jsonParse_jsonStringify]
  · intro h
    show (match jsMapGet store key with
      | some raw => if raw = "" then initial else
          (match jsonParse raw with | some w => w | none => initial)
      | none => initial) = initial
    rw [h]
  · intro raw hsome hbad
    show (match jsMapGet store key with
      | some raw2 => if raw2 = "" then initial else
          (match jsonParse raw2 with | some w => w | none => initial)
      | none => initial) = initial
    rw [hsome]
    show (if raw = "" then initial else
        (match jsonParse raw with | some w => w | none => initial)) = initial
    rcases hbad with hb | hb
    · rw [if_pos hb]
    · by_cases hb2 : raw = ""
      · rw [if_pos hb2]
      · rw [if_neg hb2]
        show (match jsonParse raw with | some w => w | none => initial) = initial
        rw [hb]

end HL
